import Mathlib

/-!
# Directed graphs in four storage layouts, with BFS, DFS and topological sort

A shallow embedding of `3_task_1.cpp`.

Modelling conventions.

* A C++ `int` is an `Int`.  The program performs no arithmetic on vertex numbers
  other than comparisons and the `++i` of counted loops.
* A `std::vector<T>` is a `List T`.  An element access `xs[i]` outside the vector
  is undefined behaviour in C++; the model makes it a failure (`none`).
* A failed `assert` aborts the program; the model returns `none`.  Where an
  assertion compares an `int` with a `size()`, the `int` has just been found
  non-negative, so the comparison is the one of the integers.
* A constructor that throws (a negative size or vertex count handed to a vector)
  returns `none`.
* A `std::unordered_set<int>` is a duplicate-free `List Int`.  The iteration order
  of the C++ container is unspecified; the model lists the elements in insertion
  order, and no statement below depends on that order.
* The abstract class `IGraph` is the sum of its four implementations; a virtual
  call is a `match` on the constructor.
* A callback `func` that is invoked on vertices is modelled by the sequence of
  vertices it was invoked on.
* Recursion depth and the number of iterations of the `while` loop are bounded
  by a fuel argument; running out of fuel is reported as `none`.
-/

/-! ## Vectors indexed by `int` -/

/-- Read `xs[i]` with an `int` index. -/
def vecGet {α : Type} (xs : List α) (i : Int) : Option α :=
  if 0 ≤ i then xs.get? i.toNat else none

/-- Write `xs[i] = x` with an `int` index. -/
def vecSet {α : Type} (xs : List α) (i : Int) (x : α) : Option (List α) :=
  if 0 ≤ i ∧ i.toNat < xs.length then some (xs.set i.toNat x) else none

/-- The values `0, 1, ..., n-1` taken by the counter of `for (int i = 0; i < n; ++i)`. -/
def indices (n : Int) : List Int :=
  (List.range n.toNat).map Int.ofNat

/-- A `for` loop over a sequence of `int`s whose body may fail. -/
def forEach {σ : Type} (body : Int → σ → Option σ) : List Int → σ → Option σ
  | [], st => some st
  | x :: xs, st => (body x st).bind (forEach body xs)

/-- The nested loops shared by `ListGraph::GetPrevVertices` and
`MatrixGraph::GetPrevVertices`: `frm` counts the rows, and `frm` is pushed once
for every entry of its row that equals `vertex`. -/
def prevScan (vertex : Int) : Int → List (List Int) → List Int
  | _, [] => []
  | frm, row :: rest =>
      (row.filter (fun dst => dst == vertex)).map (fun _ => frm) ++ prevScan vertex (frm + 1) rest

/-- The loop of `SetGraph::GetPrevVertices`: `frm` is pushed when its set
contains `vertex` (`count(vertex) > 0`). -/
def prevSetScan (vertex : Int) : Int → List (List Int) → List Int
  | _, [] => []
  | frm, s :: rest =>
      (if vertex ∈ s then [frm] else []) ++ prevSetScan vertex (frm + 1) rest

/-- The member `std::unordered_set<int>::insert`. -/
def setInsert (s : List Int) (x : Int) : List Int :=
  if x ∈ s then s else s ++ [x]

/-! ## The four representations -/

/-- Adjacency lists. -/
structure ListGraph where
  adjacencyLists : List (List Int)
  deriving DecidableEq, Repr

/-- Adjacency matrix. -/
structure MatrixGraph where
  adjMatrix : List (List Int)
  deriving DecidableEq, Repr

/-- Array of edges. -/
structure ArcGraph where
  arrVert : List (Int × Int)
  verticesCount : Int
  deriving DecidableEq, Repr

/-- Array of hash sets. -/
structure SetGraph where
  adjSet : List (List Int)
  vertexCount : Int
  deriving DecidableEq, Repr

/-- The abstract class `IGraph`: one of its four implementations. -/
inductive IGraph where
  | list (g : ListGraph)
  | matrix (g : MatrixGraph)
  | arc (g : ArcGraph)
  | set (g : SetGraph)
  deriving DecidableEq, Repr

/-! ### ListGraph -/

/-- The constructor `ListGraph(int size)`: `size` empty rows.  A negative size makes the vector
constructor throw. -/
def ListGraph.ofSize (size : Int) : Option ListGraph :=
  if 0 ≤ size then some ⟨List.replicate size.toNat []⟩ else none

def ListGraph.AddEdge (g : ListGraph) (frm dst : Int) : Option ListGraph :=
  if 0 ≤ frm ∧ frm < (g.adjacencyLists.length : Int) then
    if 0 ≤ dst ∧ dst < (g.adjacencyLists.length : Int) then
      (vecGet g.adjacencyLists frm).bind fun row =>
        (vecSet g.adjacencyLists frm (row ++ [dst])).map ListGraph.mk
    else none
  else none

def ListGraph.VerticesCount (g : ListGraph) : Int :=
  (g.adjacencyLists.length : Int)

def ListGraph.GetNextVertices (g : ListGraph) (vertex : Int) : Option (List Int) :=
  if 0 ≤ vertex ∧ vertex < (g.adjacencyLists.length : Int) then
    vecGet g.adjacencyLists vertex
  else none

def ListGraph.GetPrevVertices (g : ListGraph) (vertex : Int) : Option (List Int) :=
  if 0 ≤ vertex ∧ vertex < (g.adjacencyLists.length : Int) then
    some (prevScan vertex 0 g.adjacencyLists)
  else none

/-! ### MatrixGraph -/

/-- The constructor `MatrixGraph(int size)`: `adjMatrix(size)` makes `size` rows, each of them an
empty vector. -/
def MatrixGraph.ofSize (size : Int) : Option MatrixGraph :=
  if 0 ≤ size then some ⟨List.replicate size.toNat []⟩ else none

/-- After the two assertions, `adjMatrix[from][to] = 1`. -/
def MatrixGraph.AddEdge (g : MatrixGraph) (frm dst : Int) : Option MatrixGraph :=
  if 0 ≤ frm ∧ frm < (g.adjMatrix.length : Int) then
    if 0 ≤ dst ∧ dst < (g.adjMatrix.length : Int) then
      (vecGet g.adjMatrix frm).bind fun row =>
        (vecSet row dst 1).bind fun row1 =>
          (vecSet g.adjMatrix frm row1).map MatrixGraph.mk
    else none
  else none

def MatrixGraph.VerticesCount (g : MatrixGraph) : Int :=
  (g.adjMatrix.length : Int)

def MatrixGraph.GetNextVertices (g : MatrixGraph) (vertex : Int) : Option (List Int) :=
  if 0 ≤ vertex ∧ vertex < (g.adjMatrix.length : Int) then
    vecGet g.adjMatrix vertex
  else none

def MatrixGraph.GetPrevVertices (g : MatrixGraph) (vertex : Int) : Option (List Int) :=
  if 0 ≤ vertex ∧ vertex < (g.adjMatrix.length : Int) then
    some (prevScan vertex 0 g.adjMatrix)
  else none

/-! ### ArcGraph -/

/-- The constructor `ArcGraph(int size)`: `arrVert(size)` makes `size` value-initialised pairs,
that is `size` copies of `(0, 0)`. -/
def ArcGraph.ofSize (size : Int) : Option ArcGraph :=
  if 0 ≤ size then some ⟨List.replicate size.toNat (0, 0), size⟩ else none

/-- The assertions compare with `arrVert.size()`, the number of stored pairs. -/
def ArcGraph.AddEdge (g : ArcGraph) (frm dst : Int) : Option ArcGraph :=
  if 0 ≤ frm ∧ frm < (g.arrVert.length : Int) then
    if 0 ≤ dst ∧ dst < (g.arrVert.length : Int) then
      some ⟨g.arrVert ++ [(frm, dst)], g.verticesCount⟩
    else none
  else none

def ArcGraph.VerticesCount (g : ArcGraph) : Int :=
  g.verticesCount

def ArcGraph.GetNextVertices (g : ArcGraph) (vertex : Int) : Option (List Int) :=
  if 0 ≤ vertex ∧ vertex < g.VerticesCount then
    some ((g.arrVert.filter (fun edge => edge.1 == vertex)).map (fun edge => edge.2))
  else none

/-- The assertion compares with `arrVert.size()`, the number of stored pairs. -/
def ArcGraph.GetPrevVertices (g : ArcGraph) (vertex : Int) : Option (List Int) :=
  if 0 ≤ vertex ∧ vertex < (g.arrVert.length : Int) then
    some ((g.arrVert.filter (fun edge => edge.2 == vertex)).map (fun edge => edge.1))
  else none

/-! ### SetGraph -/

/-- The constructor `SetGraph(int size)`: `adjSet(size)` makes `size` empty sets.  The member
`vertexCount` has no initialiser in this constructor; `indeterminate` is the
value it happens to hold. -/
def SetGraph.ofSize (size : Int) (indeterminate : Int) : Option SetGraph :=
  if 0 ≤ size then some ⟨List.replicate size.toNat [], indeterminate⟩ else none

def SetGraph.VerticesCount (g : SetGraph) : Int :=
  g.vertexCount

def SetGraph.AddEdge (g : SetGraph) (frm dst : Int) : Option SetGraph :=
  if 0 ≤ frm ∧ frm < g.VerticesCount then
    if 0 ≤ dst ∧ dst < g.VerticesCount then
      (vecGet g.adjSet frm).bind fun s =>
        (vecSet g.adjSet frm (setInsert s dst)).map fun sets => ⟨sets, g.vertexCount⟩
    else none
  else none

def SetGraph.GetNextVertices (g : SetGraph) (vertex : Int) : Option (List Int) :=
  if 0 ≤ vertex ∧ vertex < (g.adjSet.length : Int) then
    vecGet g.adjSet vertex
  else none

def SetGraph.GetPrevVertices (g : SetGraph) (vertex : Int) : Option (List Int) :=
  if 0 ≤ vertex ∧ vertex < g.VerticesCount then
    some (prevSetScan vertex 0 g.adjSet)
  else none

/-! ### Virtual dispatch -/

def IGraph.AddEdge : IGraph → Int → Int → Option IGraph
  | .list g, frm, dst => (g.AddEdge frm dst).map IGraph.list
  | .matrix g, frm, dst => (g.AddEdge frm dst).map IGraph.matrix
  | .arc g, frm, dst => (g.AddEdge frm dst).map IGraph.arc
  | .set g, frm, dst => (g.AddEdge frm dst).map IGraph.set

def IGraph.VerticesCount : IGraph → Int
  | .list g => g.VerticesCount
  | .matrix g => g.VerticesCount
  | .arc g => g.VerticesCount
  | .set g => g.VerticesCount

def IGraph.GetNextVertices : IGraph → Int → Option (List Int)
  | .list g, vertex => g.GetNextVertices vertex
  | .matrix g, vertex => g.GetNextVertices vertex
  | .arc g, vertex => g.GetNextVertices vertex
  | .set g, vertex => g.GetNextVertices vertex

def IGraph.GetPrevVertices : IGraph → Int → Option (List Int)
  | .list g, vertex => g.GetPrevVertices vertex
  | .matrix g, vertex => g.GetPrevVertices vertex
  | .arc g, vertex => g.GetPrevVertices vertex
  | .set g, vertex => g.GetPrevVertices vertex

/-! ### Construction from another graph -/

/-- The constructor `ListGraph(const IGraph&)`: `resize` to the vertex count of the source (a
negative count makes `resize` throw), then `adjacencyLists[i] = graph.GetNextVertices(i)`. -/
def ListGraph.ofGraph (graph : IGraph) : Option ListGraph :=
  if 0 ≤ graph.VerticesCount then
    (forEach (fun i rows => (graph.GetNextVertices i).bind fun next => vecSet rows i next)
      (indices graph.VerticesCount) (List.replicate graph.VerticesCount.toNat [])).map ListGraph.mk
  else none

/-- The constructor `MatrixGraph(const IGraph&)`: every row is the successor sequence that the
source reports, copied as it is. -/
def MatrixGraph.ofGraph (graph : IGraph) : Option MatrixGraph :=
  if 0 ≤ graph.VerticesCount then
    (forEach (fun i rows => (graph.GetNextVertices i).bind fun next => vecSet rows i next)
      (indices graph.VerticesCount) (List.replicate graph.VerticesCount.toNat [])).map MatrixGraph.mk
  else none

/-- The constructor `ArcGraph(const IGraph&)`: one pair per reported successor. -/
def ArcGraph.ofGraph (graph : IGraph) : Option ArcGraph :=
  (forEach (fun frm arcs => (graph.GetNextVertices frm).bind fun next =>
        forEach (fun dst arcs1 => some (arcs1 ++ [(frm, dst)])) next arcs)
    (indices graph.VerticesCount) []).map fun arcs => ⟨arcs, graph.VerticesCount⟩

/-- The constructor `SetGraph(const IGraph&)`: the vertex count is copied, `adjSet` is resized to
it, and every reported successor is inserted into the set of its vertex. -/
def SetGraph.ofGraph (graph : IGraph) : Option SetGraph :=
  if 0 ≤ graph.VerticesCount then
    (forEach (fun frm sets => (graph.GetNextVertices frm).bind fun next =>
          forEach (fun dst sets1 => (vecGet sets1 frm).bind fun s =>
            vecSet sets1 frm (setInsert s dst)) next sets)
      (indices graph.VerticesCount) (List.replicate graph.VerticesCount.toNat [])).map
      fun sets => ⟨sets, graph.VerticesCount⟩
  else none

/-! ## Traversals -/

/-- The state of a traversal: the `visited` markers and the vertices handed to
the callback so far (for the topological sort: the deque `sorted`). -/
abbrev Walk := List Bool × List Int

/-- The body of the successor loop of `BFS`, on the pair of `visited` and `qu`. -/
def bfsScan (nextVertex : Int) (st : List Bool × List Int) : Option (List Bool × List Int) :=
  (vecGet st.1 nextVertex).bind fun b =>
    if b = false then
      (vecSet st.1 nextVertex true).map fun visited => (visited, st.2 ++ [nextVertex])
    else some st

/-- The state of the `while` loop of `BFS`. -/
structure BFSState where
  visited : List Bool
  qu : List Int
  out : List Int
  deriving DecidableEq, Repr

/-- One iteration of the `while` loop of `BFS` on a non-empty queue: dequeue,
call back, scan the successors. -/
def bfsStep (graph : IGraph) (visited : List Bool) (currentVertex : Int) (rest out : List Int) :
    Option BFSState :=
  (graph.GetNextVertices currentVertex).bind fun next =>
    (forEach bfsScan next (visited, rest)).map fun st =>
      ⟨st.1, st.2, out ++ [currentVertex]⟩

/-- The `while (!qu.empty())` loop of `BFS`, run for at most `fuel` iterations:
the state it stops in. -/
def bfsLoop (graph : IGraph) : Nat → BFSState → Option BFSState
  | 0, st => some st
  | fuel + 1, st =>
      match st.qu with
      | [] => some st
      | currentVertex :: rest =>
          (bfsStep graph st.visited currentVertex rest st.out).bind (bfsLoop graph fuel)

/-- The function `BFS(graph, vertex, visited, func)`; `none` when the loop has not emptied the
queue within `fuel` iterations. -/
def BFS (graph : IGraph) (fuel : Nat) (vertex : Int) (st : Walk) : Option Walk :=
  (vecSet st.1 vertex true).bind fun visited =>
    (bfsLoop graph fuel ⟨visited, [vertex], st.2⟩).bind fun fin =>
      if fin.qu = [] then some (fin.visited, fin.out) else none

/-- The body of the loops `if (!visited[i]) launch(graph, i, visited, ...)`. -/
def visitIfNew (launch : Int → Walk → Option Walk) (i : Int) (st : Walk) : Option Walk :=
  (vecGet st.1 i).bind fun b => if b = false then launch i st else some st

def mainBFS (graph : IGraph) (fuel : Nat) : Option (List Int) :=
  if 0 ≤ graph.VerticesCount then
    (forEach (visitIfNew (BFS graph fuel)) (indices graph.VerticesCount)
      (List.replicate graph.VerticesCount.toNat false, [])).map Prod.snd
  else none

/-- The function `DFS(graph, vertex, visited, func)` with recursion depth at most `fuel`. -/
def DFS (graph : IGraph) : Nat → Int → Walk → Option Walk
  | 0, _, _ => none
  | fuel + 1, vertex, st =>
      (vecSet st.1 vertex true).bind fun visited =>
        (graph.GetNextVertices vertex).bind fun next =>
          forEach (visitIfNew (DFS graph fuel)) next (visited, st.2 ++ [vertex])

def mainDFS (graph : IGraph) (fuel : Nat) : Option (List Int) :=
  if 0 ≤ graph.VerticesCount then
    (forEach (visitIfNew (DFS graph fuel)) (indices graph.VerticesCount)
      (List.replicate graph.VerticesCount.toNat false, [])).map Prod.snd
  else none

/-- The function `topologicalSortInternal(graph, vertex, visited, sorted)` with recursion
depth at most `fuel`; `sorted.push_front(vertex)` after the successors. -/
def topologicalSortInternal (graph : IGraph) : Nat → Int → Walk → Option Walk
  | 0, _, _ => none
  | fuel + 1, vertex, st =>
      (vecSet st.1 vertex true).bind fun visited =>
        (graph.GetNextVertices vertex).bind fun next =>
          (forEach (visitIfNew (topologicalSortInternal graph fuel)) next (visited, st.2)).map
            fun fin => (fin.1, vertex :: fin.2)

def topologicalSort (graph : IGraph) (fuel : Nat) : Option (List Int) :=
  if 0 ≤ graph.VerticesCount then
    (forEach (visitIfNew (topologicalSortInternal graph fuel)) (indices graph.VerticesCount)
      (List.replicate graph.VerticesCount.toNat false, [])).map Prod.snd
  else none

/-! ## The demonstration graph of `main` -/

/-- A sequence of `AddEdge` calls. -/
def addEdges (g : IGraph) : List (Int × Int) → Option IGraph
  | [] => some g
  | e :: es => (g.AddEdge e.1 e.2).bind fun g1 => addEdges g1 es

/-- The edges inserted by `main`. -/
def demoEdges : List (Int × Int) :=
  [(0, 1), (0, 5), (1, 2), (1, 3), (1, 5), (1, 6), (3, 2), (3, 4), (3, 6), (5, 4), (5, 6), (6, 4)]

/-- The graph `listGraph` of `main`. -/
def demoListGraph : ListGraph :=
  ⟨[[1, 5], [2, 3, 5, 6], [], [2, 4, 6], [], [4, 6], [4]]⟩

/-! ## Notions used in the statements -/

/-- An edge of the graph: `u` is a vertex and `w` is among the successors that
`GetNextVertices(u)` returns. -/
def Edge (g : IGraph) (u w : Int) : Prop :=
  0 ≤ u ∧ u < g.VerticesCount ∧ ∃ next, g.GetNextVertices u = some next ∧ w ∈ next

/-- A path of zero or more edges. -/
def Reach (g : IGraph) : Int → Int → Prop :=
  Relation.ReflTransGen (Edge g)

/-- No vertex lies on a cycle. -/
def Acyclic (g : IGraph) : Prop :=
  ∀ v, ¬ Relation.TransGen (Edge g) v v

/-- All successors are valid vertex indices: `GetNextVertices` succeeds on every
vertex and returns numbers in `[0, VerticesCount())`. -/
def ValidSuccessors (g : IGraph) : Prop :=
  ∀ v, 0 ≤ v → v < g.VerticesCount →
    ∃ next, g.GetNextVertices v = some next ∧ ∀ w ∈ next, 0 ≤ w ∧ w < g.VerticesCount

/-- The marker of `x` is set: `visited[x]` is `true`. -/
def Marked (visited : List Bool) (x : Int) : Prop :=
  vecGet visited x = some true

/-- Some occurrence of `a` precedes an occurrence of `b` in `l`. -/
def Before (a b : Int) (l : List Int) : Prop :=
  ∃ l1 l2, l = l1 ++ b :: l2 ∧ a ∈ l1

/-- The invariant of the `while` loop of `BFS`, for a property `R` of vertices
that is inherited along edges: the markers have the size of the graph, no vertex
occurs twice among the vertices called back and the vertices queued, these are
exactly the marked vertices, every successor of a vertex called back is marked,
and all of them satisfy `R`. -/
structure BFSGood (g : IGraph) (R : Int → Prop) (st : BFSState) : Prop where
  len : (st.visited.length : Int) = g.VerticesCount
  nodup : (st.out ++ st.qu).Nodup
  marked : ∀ x, Marked st.visited x ↔ x ∈ st.out ++ st.qu
  closed : ∀ x ∈ st.out, ∀ w, Edge g x w → Marked st.visited w
  inR : ∀ x ∈ st.out ++ st.qu, R x

/-- What a stretch of a depth-first traversal below `root` does: it takes the
markers `visited` to `visited1` and calls back on the vertices `added`.  The
vertices `added` are exactly the newly marked ones, each once, all reachable from
`root`; every successor of each of them is marked afterwards; and each of them
is a successor of `root` or of a vertex called back earlier in the stretch. -/
structure DFSBlock (g : IGraph) (root : Int) (visited visited1 : List Bool)
    (added : List Int) : Prop where
  len : visited1.length = visited.length
  marked : ∀ x, Marked visited1 x ↔ Marked visited x ∨ x ∈ added
  nodup : added.Nodup
  fresh : ∀ x ∈ added, ¬ Marked visited x
  reach : ∀ x ∈ added, Reach g root x
  closed : ∀ x ∈ added, ∀ w, Edge g x w → Marked visited1 w
  parent : ∀ x ∈ added, ∃ p, Edge g p x ∧ (p = root ∨ Before p x added)
  count : visited1.count false ≤ visited.count false

/-- The specification of a call of `DFS` on an unmarked vertex, for a given
recursion depth. -/
def DFSCallSpec (g : IGraph) (fuel : Nat) : Prop :=
  ∀ (v : Int) (visited : List Bool) (out : List Int),
    (visited.length : Int) = g.VerticesCount → 0 ≤ v → v < g.VerticesCount →
    ¬ Marked visited v → visited.count false ≤ fuel →
    ∃ visited1 new, DFS g fuel v (visited, out) = some (visited1, out ++ v :: new) ∧
      DFSBlock g v (visited.set v.toNat true) visited1 new ∧
      ∀ w, Edge g v w → Marked visited1 w

/-- What a stretch of the topological sort below `root` does: it takes the
markers `visited` to `visited1` and pushes the vertices `added` to the front of
`sorted`.  The vertices `added` are exactly the newly marked ones, each once,
all reachable from `root`; and, on an acyclic graph, every successor of each of
them was marked before the stretch or stands after it in `added`. -/
structure TopoBlock (g : IGraph) (root : Int) (visited visited1 : List Bool)
    (added : List Int) : Prop where
  len : visited1.length = visited.length
  marked : ∀ x, Marked visited1 x ↔ Marked visited x ∨ x ∈ added
  nodup : added.Nodup
  fresh : ∀ x ∈ added, ¬ Marked visited x
  reach : ∀ x ∈ added, Reach g root x
  order : Acyclic g → ∀ x ∈ added, ∀ w, Edge g x w → Marked visited w ∨ Before x w added
  count : visited1.count false ≤ visited.count false

/-- The specification of a call of `topologicalSortInternal` on an unmarked
vertex, for a given recursion depth. -/
def TopoCallSpec (g : IGraph) (fuel : Nat) : Prop :=
  ∀ (v : Int) (visited : List Bool) (sorted : List Int),
    (visited.length : Int) = g.VerticesCount → 0 ≤ v → v < g.VerticesCount →
    ¬ Marked visited v → visited.count false ≤ fuel →
    ∃ visited1 added,
      topologicalSortInternal g fuel v (visited, sorted) = some (visited1, v :: added ++ sorted) ∧
      TopoBlock g v visited visited1 (v :: added)

/-- A decision procedure for `ValidSuccessors`. -/
def checkSuccessors (g : IGraph) : Bool :=
  (indices g.VerticesCount).all fun v =>
    match g.GetNextVertices v with
    | some next => next.all fun w => decide (0 ≤ w ∧ w < g.VerticesCount)
    | none => false

/-- A check that `rank` increases strictly along every edge. -/
def checkRank (g : IGraph) (rank : Int → Nat) : Bool :=
  (indices g.VerticesCount).all fun u =>
    match g.GetNextVertices u with
    | some next => next.all fun w => decide (rank u < rank w)
    | none => true

/-- The position of each vertex of the demonstration graph in one of its
topological orders, `0 1 5 3 6 4 2`. -/
def demoRank (v : Int) : Nat :=
  [0, 1, 5, 3, 6, 4, 2].indexOf v

/-- The graph `ListGraph(2)` after `AddEdge(0, 1)`. -/
def oneEdgeListGraph : ListGraph :=
  ⟨[[1], []]⟩

/-- The four concrete classes. -/
inductive Kind where
  | list
  | matrix
  | arc
  | set
  deriving DecidableEq, Repr

/-- The dynamic type of a graph. -/
def IGraph.kind : IGraph → Kind
  | .list _ => .list
  | .matrix _ => .matrix
  | .arc _ => .arc
  | .set _ => .set

/-- Construction of a graph of class `k` from another graph, through the
constructor of `k` that takes a `const IGraph&`. -/
def convert (k : Kind) (graph : IGraph) : Option IGraph :=
  match k with
  | .list => (ListGraph.ofGraph graph).map IGraph.list
  | .matrix => (MatrixGraph.ofGraph graph).map IGraph.matrix
  | .arc => (ArcGraph.ofGraph graph).map IGraph.arc
  | .set => (SetGraph.ofGraph graph).map IGraph.set

/-- The vertex count is not negative and `GetNextVertices` succeeds on every
vertex `0, ..., VerticesCount() - 1`. -/
def Consistent (g : IGraph) : Prop :=
  0 ≤ g.VerticesCount ∧
    ∀ v, 0 ≤ v → v < g.VerticesCount → ∃ next, g.GetNextVertices v = some next

/-- The graph `b` has the vertex count of `g`, and on every vertex its successor
sequence has the same elements as the one of `g`. -/
def SameSuccessors (g b : IGraph) : Prop :=
  b.VerticesCount = g.VerticesCount ∧
    ∀ v, 0 ≤ v → v < g.VerticesCount →
      ∃ l1 l2, g.GetNextVertices v = some l1 ∧ b.GetNextVertices v = some l2 ∧
        ∀ x, x ∈ l2 ↔ x ∈ l1

/-- The graph `ListGraph(2)` without edges. -/
def twoVertexListGraph : ListGraph :=
  ⟨[[], []]⟩

/-- Every stored successor of a `ListGraph` is a vertex index. -/
def ListGraph.InRange (g : ListGraph) : Prop :=
  ∀ row ∈ g.adjacencyLists, ∀ w ∈ row, 0 ≤ w ∧ w < (g.adjacencyLists.length : Int)

/-- A `ListGraph` with the cycle `0 -> 1 -> 2 -> 0`. -/
def cycleListGraph : ListGraph :=
  ⟨[[1], [2], [0]]⟩

/-- The targets that a conversion inserts for vertex `v`: the successors that
the source reports for `v`, when `v` is a vertex of the source. -/
def reportedTargets (graph : IGraph) (v : Int) : List Int :=
  if 0 ≤ v ∧ v < graph.VerticesCount then (graph.GetNextVertices v).getD [] else []

/-- The states of a `SetGraph` together with the targets inserted so far for each
vertex: after `SetGraph(int)` nothing is inserted; after `SetGraph(const IGraph&)`
the targets are the successors reported by the source; each `AddEdge(from, to)`
that returns inserts `to` for `from`. -/
inductive SetGraph.Built : SetGraph → (Int → List Int) → Prop where
  | size (n indeterminate : Int) (g : SetGraph) (h : SetGraph.ofSize n indeterminate = some g) :
      SetGraph.Built g (fun _ => [])
  | conv (graph : IGraph) (g : SetGraph) (h : SetGraph.ofGraph graph = some g) :
      SetGraph.Built g (reportedTargets graph)
  | add (g g1 : SetGraph) (ins : Int → List Int) (frm dst : Int) (hg : SetGraph.Built g ins)
      (h : g.AddEdge frm dst = some g1) :
      SetGraph.Built g1 (fun v => if v = frm then ins v ++ [dst] else ins v)

/-- The invariant of a `SetGraph`: every stored set is free of duplicates and
holds exactly the targets inserted for its vertex. -/
def SetGraph.Exact (g : SetGraph) (ins : Int → List Int) : Prop :=
  ∀ v s, vecGet g.adjSet v = some s → s.Nodup ∧ ∀ x, x ∈ s ↔ x ∈ ins v

/-- A `ListGraph` whose vertex `0` has the successor `1` twice. -/
def duplicateListGraph : ListGraph :=
  ⟨[[1, 1, 0], []]⟩

/-- The source answers `GetNextVertices` on each of its vertices. -/
def AnswersOnVertices (g : IGraph) : Prop :=
  ∀ v, 0 ≤ v → v < g.VerticesCount → ∃ next, g.GetNextVertices v = some next

/-- A path of exactly `n` edges. -/
inductive PathN (g : IGraph) : Nat → Int → Int → Prop where
  | zero (a : Int) : PathN g 0 a a
  | step {n : Nat} {a b c : Int} (h : PathN g n a b) (e : Edge g b c) : PathN g (n + 1) a c

/-- The shortest-path distance from `s` to `x` is `d`: some path has `d` edges
and no path has fewer. -/
def IsDist (g : IGraph) (s x : Int) (d : Nat) : Prop :=
  PathN g d s x ∧ ∀ m, PathN g m s x → d ≤ m

/-- The distance of `a` from `s` is at most the distance of `b` from `s`. -/
def DistLe (g : IGraph) (s a b : Int) : Prop :=
  ∀ da db, IsDist g s a da → IsDist g s b db → da ≤ db

/-- The level structure of the `while` loop of `BFS`: the source has been
marked, the vertices called back followed by the queued ones stand in
non-decreasing distance from the source, and no queued vertex is more than one
edge farther than the head of the queue. -/
structure BFSLevel (g : IGraph) (s : Int) (st : BFSState) : Prop where
  src : s ∈ st.out ++ st.qu
  sorted : (st.out ++ st.qu).Pairwise (DistLe g s)
  span : ∀ c rest, st.qu = c :: rest → ∀ z ∈ st.qu, ∀ dc dz,
    IsDist g s c dc → IsDist g s z dz → dz ≤ dc + 1

/-! ## Vectors -/

theorem vecGet_some_iff {α : Type} (xs : List α) (i : Int) (a : α) :
    vecGet xs i = some a ↔ 0 ≤ i ∧ xs.get? i.toNat = some a := by
  unfold vecGet
  by_cases h : 0 ≤ i <;> simp [h]

theorem vecGet_range {α : Type} {xs : List α} {i : Int} {a : α} (h : vecGet xs i = some a) :
    0 ≤ i ∧ i < (xs.length : Int) := by
  rw [vecGet_some_iff] at h
  obtain ⟨h0, h1⟩ := h
  have := List.get?_eq_some.1 h1
  obtain ⟨hlt, _⟩ := this
  exact ⟨h0, by omega⟩

theorem vecGet_of_range {α : Type} (xs : List α) (i : Int) (h0 : 0 ≤ i)
    (h1 : i < (xs.length : Int)) : ∃ a, vecGet xs i = some a := by
  have hlt : i.toNat < xs.length := by omega
  refine ⟨xs.get ⟨i.toNat, hlt⟩, ?_⟩
  rw [vecGet_some_iff]
  exact ⟨h0, List.get?_eq_get hlt⟩

theorem vecSet_of_range {α : Type} (xs : List α) (i : Int) (x : α) (h0 : 0 ≤ i)
    (h1 : i < (xs.length : Int)) : vecSet xs i x = some (xs.set i.toNat x) := by
  unfold vecSet
  have hlt : i.toNat < xs.length := by omega
  simp [h0, hlt]

theorem vecSet_some {α : Type} {xs ys : List α} {i : Int} {x : α} (h : vecSet xs i x = some ys) :
    0 ≤ i ∧ i < (xs.length : Int) ∧ ys = xs.set i.toNat x := by
  unfold vecSet at h
  by_cases hc : 0 ≤ i ∧ i.toNat < xs.length
  · simp [hc] at h
    exact ⟨hc.1, by omega, h.symm⟩
  · simp [hc] at h

theorem vecSet_length {α : Type} {xs ys : List α} {i : Int} {x : α}
    (h : vecSet xs i x = some ys) : ys.length = xs.length := by
  obtain ⟨_, _, rfl⟩ := vecSet_some h
  simp

theorem vecGet_vecSet {α : Type} {xs ys : List α} {i : Int} {x : α}
    (h : vecSet xs i x = some ys) (j : Int) :
    vecGet ys j = if j = i then some x else vecGet xs j := by
  obtain ⟨h0, h1, rfl⟩ := vecSet_some h
  by_cases hj : j = i
  · subst hj
    have hlt : j.toNat < xs.length := by omega
    simp [vecGet, h0, List.get?_eq_getElem?, List.getElem?_set, hlt]
  · simp only [hj, if_false]
    unfold vecGet
    by_cases hj0 : 0 ≤ j
    · have hne : i.toNat ≠ j.toNat := by omega
      simp [hj0, List.get?_eq_getElem?, List.getElem?_set, hne]
    · simp [hj0]

theorem marked_vecSet {visited visited1 : List Bool} {v : Int}
    (h : vecSet visited v true = some visited1) (x : Int) :
    Marked visited1 x ↔ x = v ∨ Marked visited x := by
  unfold Marked
  rw [vecGet_vecSet h]
  by_cases hx : x = v <;> simp [hx]

theorem count_set_false (xs : List Bool) (n : Nat) (h : xs.get? n = some false) :
    (xs.set n true).count false + 1 = xs.count false := by
  induction xs generalizing n with
  | nil => simp at h
  | cons a t ih =>
    cases n with
    | zero =>
      simp at h
      subst h
      simp
    | succ m =>
      simp at h
      have := ih m (by simpa using h)
      cases a <;> simp [List.count_cons] <;> omega

theorem count_vecSet {visited visited1 : List Bool} {v : Int}
    (hg : vecGet visited v = some false) (h : vecSet visited v true = some visited1) :
    visited1.count false + 1 = visited.count false := by
  obtain ⟨_, _, rfl⟩ := vecSet_some h
  rw [vecGet_some_iff] at hg
  exact count_set_false visited v.toNat hg.2

theorem not_marked_iff {visited : List Bool} {x : Int} (h0 : 0 ≤ x)
    (h1 : x < (visited.length : Int)) : ¬ Marked visited x ↔ vecGet visited x = some false := by
  obtain ⟨b, hb⟩ := vecGet_of_range visited x h0 h1
  unfold Marked
  rw [hb]
  cases b <;> simp

theorem not_marked_replicate (n : Nat) (x : Int) : ¬ Marked (List.replicate n false) x := by
  unfold Marked
  rw [vecGet_some_iff]
  rintro ⟨_, h⟩
  rw [List.get?_eq_some] at h
  obtain ⟨hlt, h⟩ := h
  simp at h

theorem mem_indices (n x : Int) : x ∈ indices n ↔ 0 ≤ x ∧ x < n := by
  unfold indices
  simp only [List.mem_map, List.mem_range]
  constructor
  · rintro ⟨k, hk, rfl⟩
    have : ((k : Nat) : Int) = Int.ofNat k := rfl
    constructor
    · exact Int.ofNat_nonneg k
    · change (k : Int) < n
      omega
  · rintro ⟨h0, h1⟩
    refine ⟨x.toNat, by omega, ?_⟩
    change ((x.toNat : Nat) : Int) = x
    omega

theorem nodup_indices (n : Int) : (indices n).Nodup := by
  unfold indices
  refine List.Nodup.map ?_ (List.nodup_range _)
  intro a b h
  exact Int.ofNat.inj h

theorem perm_indices {out : List Int} {n : Int} (hnd : out.Nodup)
    (hmem : ∀ x, x ∈ out ↔ 0 ≤ x ∧ x < n) : out.Perm (indices n) := by
  rw [List.perm_ext_iff_of_nodup hnd (nodup_indices n)]
  intro x
  rw [hmem, mem_indices]

theorem marked_range {visited : List Bool} {x : Int} (h : Marked visited x) :
    0 ≤ x ∧ x < (visited.length : Int) :=
  vecGet_range h

/-! ## The loop of the main drivers -/

theorem forEach_visitIfNew_spec (launch : Int → Walk → Option Walk) (Inv : Walk → Prop) (n : Int)
    (hlen : ∀ st, Inv st → (st.1.length : Int) = n)
    (hlaunch : ∀ i st, Inv st → 0 ≤ i → i < n → ¬ Marked st.1 i →
      ∃ st1, launch i st = some st1 ∧ Inv st1 ∧ Marked st1.1 i ∧
        ∀ x, Marked st.1 x → Marked st1.1 x) :
    ∀ (roots : List Int) (st : Walk), Inv st → (∀ i ∈ roots, 0 ≤ i ∧ i < n) →
      ∃ fin, forEach (visitIfNew launch) roots st = some fin ∧ Inv fin ∧
        (∀ i ∈ roots, Marked fin.1 i) ∧ ∀ x, Marked st.1 x → Marked fin.1 x := by
  intro roots
  induction roots with
  | nil =>
    intro st hinv _
    exact ⟨st, rfl, hinv, by simp, fun _ h => h⟩
  | cons i rest ih =>
    intro st hinv hval
    have hi := hval i (List.mem_cons_self _ _)
    have hrest : ∀ j ∈ rest, 0 ≤ j ∧ j < n := fun j hj => hval j (List.mem_cons_of_mem _ hj)
    have hl := hlen st hinv
    obtain ⟨b, hb⟩ := vecGet_of_range st.1 i hi.1 (by omega)
    cases b with
    | true =>
      obtain ⟨fin, hrun, hinvf, hall, hmono⟩ := ih st hinv hrest
      refine ⟨fin, ?_, hinvf, ?_, hmono⟩
      · simp [forEach, visitIfNew, hb, hrun]
      · intro j hj
        rcases List.mem_cons.1 hj with rfl | hj
        · exact hmono j hb
        · exact hall j hj
    | false =>
      have hnot : ¬ Marked st.1 i := by unfold Marked; rw [hb]; simp
      obtain ⟨st1, hl1, hinv1, hmi, hmono1⟩ := hlaunch i st hinv hi.1 hi.2 hnot
      obtain ⟨fin, hrun, hinvf, hall, hmono⟩ := ih st1 hinv1 hrest
      refine ⟨fin, ?_, hinvf, ?_, fun x hx => hmono x (hmono1 x hx)⟩
      · simp [forEach, visitIfNew, hb, hl1, hrun]
      · intro j hj
        rcases List.mem_cons.1 hj with rfl | hj
        · exact hmono j hmi
        · exact hall j hj

/-! ## Breadth-first search -/

theorem forEach_bfsScan_spec (n : Int) (next : List Int) :
    ∀ (visited : List Bool) (qu : List Int), (visited.length : Int) = n →
      (∀ w ∈ next, 0 ≤ w ∧ w < n) →
      ∃ visited1 added, forEach bfsScan next (visited, qu) = some (visited1, qu ++ added) ∧
        visited1.length = visited.length ∧ added.Nodup ∧
        (∀ x ∈ added, ¬ Marked visited x) ∧ (∀ x ∈ added, x ∈ next) ∧
        (∀ x, Marked visited1 x ↔ Marked visited x ∨ x ∈ added) ∧
        (∀ w ∈ next, Marked visited1 w) ∧
        visited1.count false + added.length = visited.count false := by
  induction next with
  | nil =>
    intro visited qu _ _
    exact ⟨visited, [], by simp [forEach], rfl, List.nodup_nil, by simp, by simp, by simp,
      by simp, by simp⟩
  | cons w ws ih =>
    intro visited qu hlen hval
    have hw := hval w (List.mem_cons_self _ _)
    have hws : ∀ x ∈ ws, 0 ≤ x ∧ x < n := fun x hx => hval x (List.mem_cons_of_mem _ hx)
    obtain ⟨b, hb⟩ := vecGet_of_range visited w hw.1 (by omega)
    cases b with
    | true =>
      obtain ⟨v1, added, hrun, hl, hnd, hnew, hsub, hmk, hall, hcnt⟩ := ih visited qu hlen hws
      refine ⟨v1, added, ?_, hl, hnd, hnew, fun x hx => List.mem_cons_of_mem _ (hsub x hx),
        hmk, ?_, hcnt⟩
      · simp [forEach, bfsScan, hb, hrun]
      · intro x hx
        rcases List.mem_cons.1 hx with rfl | hx
        · exact (hmk x).2 (Or.inl hb)
        · exact hall x hx
    | false =>
      have hset := vecSet_of_range visited w true hw.1 (by omega)
      have hlen1 : ((visited.set w.toNat true).length : Int) = n := by simpa using hlen
      obtain ⟨v1, added, hrun, hl, hnd, hnew, hsub, hmk, hall, hcnt⟩ :=
        ih (visited.set w.toNat true) (qu ++ [w]) hlen1 hws
      have hm1 := marked_vecSet hset
      have hwnot : w ∉ added := fun hin => hnew w hin ((hm1 w).2 (Or.inl rfl))
      refine ⟨v1, w :: added, ?_, by simpa using hl, List.nodup_cons.2 ⟨hwnot, hnd⟩, ?_, ?_, ?_,
        ?_, ?_⟩
      · simp [forEach, bfsScan, hb, hset, hrun]
      · intro x hx
        rcases List.mem_cons.1 hx with rfl | hx
        · unfold Marked; rw [hb]; simp
        · exact fun hmx => hnew x hx ((hm1 x).2 (Or.inr hmx))
      · intro x hx
        rcases List.mem_cons.1 hx with rfl | hx
        · exact List.mem_cons_self _ _
        · exact List.mem_cons_of_mem _ (hsub x hx)
      · intro x
        rw [hmk x, hm1 x, List.mem_cons]
        tauto
      · intro x hx
        rcases List.mem_cons.1 hx with rfl | hx
        · exact (hmk x).2 (Or.inl ((hm1 x).2 (Or.inl rfl)))
        · exact hall x hx
      · have := count_vecSet hb hset
        simp only [List.length_cons]
        omega

theorem bfsStep_spec {g : IGraph} {R : Int → Prop} (hv : ValidSuccessors g)
    (hR : ∀ x w, R x → Edge g x w → R w) (visited : List Bool) (cur : Int) (rest out : List Int)
    (hgood : BFSGood g R ⟨visited, cur :: rest, out⟩) :
    ∃ st, bfsStep g visited cur rest out = some st ∧ BFSGood g R st ∧
      st.out = out ++ [cur] ∧ (∀ x, Marked visited x → Marked st.visited x) ∧
      st.qu.length + st.visited.count false = rest.length + visited.count false := by
  have hcurM : Marked visited cur := (hgood.marked cur).2 (by simp)
  have hcur := vecGet_range hcurM
  have hlen := hgood.len
  simp only at hlen
  have hcur1 : cur < g.VerticesCount := by omega
  obtain ⟨next, hnext, hval⟩ := hv cur hcur.1 hcur1
  obtain ⟨v1, added, hrun, hl, hnd, hnew, hsub, hmk, hall, hcnt⟩ :=
    forEach_bfsScan_spec g.VerticesCount next visited rest hlen hval
  have hedge : ∀ x ∈ next, Edge g cur x := fun x hx => ⟨hcur.1, hcur1, next, hnext, hx⟩
  have hnd0 := hgood.nodup
  simp only at hnd0
  have hmk0 := hgood.marked
  simp only at hmk0
  refine ⟨⟨v1, rest ++ added, out ++ [cur]⟩, ?_, ?_, rfl, fun x hx => (hmk x).2 (Or.inl hx), ?_⟩
  · simp [bfsStep, hnext, hrun]
  · constructor
    · simp only [hl]; exact hlen
    · simp only
      have h1 : (out ++ [cur] ++ (rest ++ added)) = (out ++ cur :: rest) ++ added := by simp
      rw [h1]
      refine List.Nodup.append hnd0 hnd ?_
      intro x hx1 hx2
      exact hnew x hx2 ((hmk0 x).2 hx1)
    · intro x
      simp only
      rw [hmk x, hmk0 x]
      simp only [List.mem_append, List.mem_cons, List.mem_singleton, List.not_mem_nil, or_false]
      tauto
    · intro x hx w hw
      simp only at hx ⊢
      rcases List.mem_append.1 hx with hx | hx
      · exact (hmk w).2 (Or.inl (hgood.closed x hx w hw))
      · simp only [List.mem_singleton] at hx
        subst hx
        obtain ⟨_, _, next1, hn1, hw1⟩ := hw
        rw [hnext] at hn1
        cases hn1
        exact hall w hw1
    · intro x hx
      simp only [List.mem_append, List.mem_singleton] at hx
      have hin := hgood.inR
      simp only [List.mem_append, List.mem_cons] at hin
      rcases hx with (hx | hx) | hx | hx
      · exact hin x (Or.inl hx)
      · exact hin x (Or.inr (Or.inl hx))
      · exact hin x (Or.inr (Or.inr hx))
      · exact hR cur x (hin cur (Or.inr (Or.inl rfl))) (hedge x (hsub x hx))
  · simp only [List.length_append]
    omega

theorem bfsLoop_spec {g : IGraph} {R : Int → Prop} (hv : ValidSuccessors g)
    (hR : ∀ x w, R x → Edge g x w → R w) :
    ∀ (fuel : Nat) (st : BFSState), BFSGood g R st →
      ∃ fin, bfsLoop g fuel st = some fin ∧ BFSGood g R fin ∧
        (∃ more, fin.out = st.out ++ more) ∧
        (∀ x, Marked st.visited x → Marked fin.visited x) ∧
        (st.qu.length + st.visited.count false ≤ fuel → fin.qu = []) := by
  intro fuel
  induction fuel with
  | zero =>
    intro st hgood
    refine ⟨st, rfl, hgood, ⟨[], by simp⟩, fun _ h => h, ?_⟩
    intro h
    exact List.length_eq_zero.1 (by omega)
  | succ fuel ih =>
    intro st hgood
    obtain ⟨visited, qu, out⟩ := st
    cases qu with
    | nil => exact ⟨⟨visited, [], out⟩, rfl, hgood, ⟨[], by simp⟩, fun _ h => h, fun _ => rfl⟩
    | cons cur rest =>
      obtain ⟨st1, hstep, hgood1, hout1, hmono1, hmeasure⟩ :=
        bfsStep_spec hv hR visited cur rest out hgood
      obtain ⟨fin, hrun, hgoodf, ⟨more, hmore⟩, hmono, hdone⟩ := ih st1 hgood1
      refine ⟨fin, ?_, hgoodf, ⟨cur :: more, ?_⟩, fun x hx => hmono x (hmono1 x hx), ?_⟩
      · simp [bfsLoop, hstep, hrun]
      · rw [hmore, hout1]; simp
      · intro h
        apply hdone
        simp only [List.length_cons] at h
        omega

theorem BFS_start_good {g : IGraph} {R : Int → Prop} (vertex : Int) (visited : List Bool)
    (out : List Int) (hgood : BFSGood g R ⟨visited, [], out⟩) (h0 : 0 ≤ vertex)
    (h1 : vertex < g.VerticesCount) (hnew : ¬ Marked visited vertex) (hRv : R vertex) :
    BFSGood g R ⟨visited.set vertex.toNat true, [vertex], out⟩ := by
  have hlen := hgood.len
  simp only at hlen
  have hset := vecSet_of_range visited vertex true h0 (by omega)
  have hm1 := marked_vecSet hset
  have hmk0 := hgood.marked
  simp only [List.append_nil] at hmk0
  have hnd0 := hgood.nodup
  simp only [List.append_nil] at hnd0
  constructor
  · simpa using hlen
  · simp only
    refine List.Nodup.append hnd0 (List.nodup_singleton _) ?_
    intro x hx1 hx2
    simp only [List.mem_singleton] at hx2
    subst hx2
    exact hnew ((hmk0 x).2 hx1)
  · intro x
    simp only
    rw [hm1 x, hmk0 x]
    simp only [List.mem_append, List.mem_singleton]
    tauto
  · intro x hx w hw
    exact (hm1 w).2 (Or.inr (hgood.closed x hx w hw))
  · intro x hx
    simp only [List.mem_append, List.mem_singleton] at hx
    rcases hx with hx | hx
    · exact hgood.inR x (by simpa using hx)
    · subst hx; exact hRv

theorem BFS_spec {g : IGraph} {R : Int → Prop} (hv : ValidSuccessors g)
    (hR : ∀ x w, R x → Edge g x w → R w) (fuel : Nat) (vertex : Int) (visited : List Bool)
    (out : List Int) (hgood : BFSGood g R ⟨visited, [], out⟩) (h0 : 0 ≤ vertex)
    (h1 : vertex < g.VerticesCount) (hnew : ¬ Marked visited vertex) (hRv : R vertex)
    (hfuel : visited.count false ≤ fuel) :
    ∃ visited1 more, BFS g fuel vertex (visited, out) = some (visited1, out ++ more) ∧
      BFSGood g R ⟨visited1, [], out ++ more⟩ ∧ Marked visited1 vertex ∧
      (∀ x, Marked visited x → Marked visited1 x) := by
  have hlen := hgood.len
  simp only at hlen
  have hset := vecSet_of_range visited vertex true h0 (by omega)
  have hfalse := (not_marked_iff h0 (by omega)).1 hnew
  have hm1 := marked_vecSet hset
  have hcnt := count_vecSet hfalse hset
  have hmk0 := hgood.marked
  simp only [List.append_nil] at hmk0
  have hnd0 := hgood.nodup
  simp only [List.append_nil] at hnd0
  have hstart := BFS_start_good vertex visited out hgood h0 h1 hnew hRv
  obtain ⟨fin, hrun, hgoodf, ⟨more, hmore⟩, hmono, hdone⟩ := bfsLoop_spec hv hR fuel _ hstart
  have hq : fin.qu = [] := by
    apply hdone
    simp only [List.length_singleton]
    omega
  obtain ⟨fv, fq, fo⟩ := fin
  simp only at hq hmore hmono
  subst hq
  subst hmore
  refine ⟨fv, more, ?_, hgoodf, hmono vertex ((hm1 vertex).2 (Or.inl rfl)),
    fun x hx => hmono x ((hm1 x).2 (Or.inr hx))⟩
  simp [BFS, hset, hrun]

theorem BFSGood_initial (g : IGraph) (R : Int → Prop) (h : 0 ≤ g.VerticesCount) :
    BFSGood g R ⟨List.replicate g.VerticesCount.toNat false, [], []⟩ := by
  constructor
  · simp only [List.length_replicate]; omega
  · simp
  · intro x
    simp only [List.append_nil, List.not_mem_nil, iff_false]
    exact not_marked_replicate _ x
  · intro x hx
    simp at hx
  · intro x hx
    simp at hx

theorem count_false_le_fuel {g : IGraph} {visited : List Bool} {fuel : Nat}
    (hlen : (visited.length : Int) = g.VerticesCount) (hfuel : g.VerticesCount.toNat ≤ fuel) :
    visited.count false ≤ fuel := by
  have := List.count_le_length false visited
  omega

theorem mainBFS_spec (g : IGraph) (fuel : Nat) (hN : 0 ≤ g.VerticesCount)
    (hv : ValidSuccessors g) (hfuel : g.VerticesCount.toNat ≤ fuel) :
    ∃ out, mainBFS g fuel = some out ∧ out.Perm (indices g.VerticesCount) := by
  have hR : ∀ x w, True → Edge g x w → True := fun _ _ _ _ => trivial
  have hinit := BFSGood_initial g (fun _ => True) hN
  obtain ⟨fin, hrun, hgood, hall, _⟩ :=
    forEach_visitIfNew_spec (BFS g fuel)
      (fun st => BFSGood g (fun _ => True) ⟨st.1, [], st.2⟩) g.VerticesCount
      (fun st hst => hst.len)
      (fun i st hst hi0 hi1 hnew => by
        obtain ⟨v1, more, hrun, hg1, hmi, hmono⟩ :=
          BFS_spec hv hR fuel i st.1 st.2 hst hi0 hi1 hnew trivial
            (count_false_le_fuel hst.len hfuel)
        exact ⟨_, hrun, hg1, hmi, hmono⟩)
      (indices g.VerticesCount) (List.replicate g.VerticesCount.toNat false, []) hinit
      (fun i hi => (mem_indices _ i).1 hi)
  refine ⟨fin.2, ?_, ?_⟩
  · simp [mainBFS, hN, hrun]
  · have hmk := hgood.marked
    simp only [List.append_nil] at hmk
    have hlen := hgood.len
    simp only at hlen
    refine perm_indices (by simpa using hgood.nodup) ?_
    intro x
    constructor
    · intro hx
      have := marked_range ((hmk x).2 hx)
      omega
    · intro hx
      exact (hmk x).1 (hall x ((mem_indices _ x).2 hx))

/-! ## Order of occurrence in a sequence -/

theorem before_append_right {a b : Int} {l : List Int} (m : List Int) (h : Before a b l) :
    Before a b (l ++ m) := by
  obtain ⟨l1, l2, rfl, ha⟩ := h
  exact ⟨l1, l2 ++ m, by simp, ha⟩

theorem before_append_left {a b : Int} {l : List Int} (m : List Int) (h : Before a b l) :
    Before a b (m ++ l) := by
  obtain ⟨l1, l2, rfl, ha⟩ := h
  exact ⟨m ++ l1, l2, by simp, List.mem_append_right _ ha⟩

theorem before_of_mem {a b : Int} {l m : List Int} (ha : a ∈ l) (hb : b ∈ m) :
    Before a b (l ++ m) := by
  obtain ⟨m1, m2, rfl⟩ := List.append_of_mem hb
  exact ⟨l ++ m1, m2, by simp, List.mem_append_left _ ha⟩

theorem before_cons_head {a b : Int} {l : List Int} (hb : b ∈ l) : Before a b (a :: l) :=
  before_of_mem (l := [a]) (List.mem_singleton_self a) hb

/-! ## Edges -/

theorem edge_range {g : IGraph} (hv : ValidSuccessors g) {u w : Int} (h : Edge g u w) :
    0 ≤ w ∧ w < g.VerticesCount := by
  obtain ⟨h0, h1, next, hn, hw⟩ := h
  obtain ⟨next1, hn1, hval⟩ := hv u h0 h1
  rw [hn] at hn1
  cases hn1
  exact hval w hw

/-! ## Depth-first search -/

theorem dfsBlock_nil (g : IGraph) (root : Int) (visited : List Bool) :
    DFSBlock g root visited visited [] :=
  ⟨rfl, by simp, List.nodup_nil, by simp, by simp, by simp, by simp, le_refl _⟩

theorem dfsBlock_append {g : IGraph} {root : Int} {va vb vc : List Bool} {b1 b2 : List Int}
    (h1 : DFSBlock g root va vb b1) (h2 : DFSBlock g root vb vc b2) :
    DFSBlock g root va vc (b1 ++ b2) := by
  constructor
  · rw [h2.len, h1.len]
  · intro x
    rw [h2.marked, h1.marked, List.mem_append]
    tauto
  · refine List.Nodup.append h1.nodup h2.nodup ?_
    intro x hx1 hx2
    exact h2.fresh x hx2 ((h1.marked x).2 (Or.inr hx1))
  · intro x hx
    rcases List.mem_append.1 hx with hx | hx
    · exact h1.fresh x hx
    · exact fun hm => h2.fresh x hx ((h1.marked x).2 (Or.inl hm))
  · intro x hx
    rcases List.mem_append.1 hx with hx | hx
    · exact h1.reach x hx
    · exact h2.reach x hx
  · intro x hx w hw
    rcases List.mem_append.1 hx with hx | hx
    · exact (h2.marked w).2 (Or.inl (h1.closed x hx w hw))
    · exact h2.closed x hx w hw
  · intro x hx
    rcases List.mem_append.1 hx with hx | hx
    · obtain ⟨p, hp, hb⟩ := h1.parent x hx
      exact ⟨p, hp, hb.imp id (before_append_right b2)⟩
    · obtain ⟨p, hp, hb⟩ := h2.parent x hx
      exact ⟨p, hp, hb.imp id (before_append_left b1)⟩
  · exact le_trans h2.count h1.count

/-- A recursive call on an unmarked successor `w` of `root`, seen from the loop
of `root`. -/
theorem dfsBlock_ofCall {g : IGraph} {root w : Int} {visited visited1 : List Bool}
    {new : List Int} (hw : Edge g root w) (h0 : 0 ≤ w) (h1 : w < (visited.length : Int))
    (hnew : ¬ Marked visited w)
    (hb : DFSBlock g w (visited.set w.toNat true) visited1 new)
    (hcl : ∀ z, Edge g w z → Marked visited1 z) :
    DFSBlock g root visited visited1 (w :: new) := by
  have hset := vecSet_of_range visited w true h0 h1
  have hm1 := marked_vecSet hset
  have hfalse := (not_marked_iff h0 h1).1 hnew
  have hcnt := count_vecSet hfalse hset
  have hrw : Reach g root w := Relation.ReflTransGen.single hw
  constructor
  · rw [hb.len]; simp
  · intro x
    rw [hb.marked, hm1, List.mem_cons]
    tauto
  · refine List.nodup_cons.2 ⟨?_, hb.nodup⟩
    intro hin
    exact hb.fresh w hin ((hm1 w).2 (Or.inl rfl))
  · intro x hx
    rcases List.mem_cons.1 hx with rfl | hx
    · exact hnew
    · exact fun hm => hb.fresh x hx ((hm1 x).2 (Or.inr hm))
  · intro x hx
    rcases List.mem_cons.1 hx with rfl | hx
    · exact hrw
    · exact Relation.ReflTransGen.trans hrw (hb.reach x hx)
  · intro x hx z hz
    rcases List.mem_cons.1 hx with rfl | hx
    · exact hcl z hz
    · exact hb.closed x hx z hz
  · intro x hx
    rcases List.mem_cons.1 hx with rfl | hx
    · exact ⟨root, hw, Or.inl rfl⟩
    · obtain ⟨p, hp, hor⟩ := hb.parent x hx
      refine ⟨p, hp, Or.inr ?_⟩
      rcases hor with hpw | hbef
      · rw [hpw]; exact before_cons_head hx
      · exact before_append_left [w] hbef
  · have := hb.count
    omega

theorem forEach_DFS_spec {g : IGraph} (hv : ValidSuccessors g) (fuel : Nat) (root : Int)
    (ih : DFSCallSpec g fuel) :
    ∀ (ws : List Int) (visited : List Bool) (out : List Int),
      (visited.length : Int) = g.VerticesCount → (∀ w ∈ ws, Edge g root w) →
      visited.count false ≤ fuel →
      ∃ visited1 added,
        forEach (visitIfNew (DFS g fuel)) ws (visited, out) = some (visited1, out ++ added) ∧
        DFSBlock g root visited visited1 added ∧ ∀ w ∈ ws, Marked visited1 w := by
  intro ws
  induction ws with
  | nil =>
    intro visited out _ _ _
    exact ⟨visited, [], by simp [forEach], dfsBlock_nil g root visited, by simp⟩
  | cons w rest ihl =>
    intro visited out hlen hedges hcnt
    have hw := hedges w (List.mem_cons_self _ _)
    have hrest : ∀ x ∈ rest, Edge g root x := fun x hx => hedges x (List.mem_cons_of_mem _ hx)
    have hwr := edge_range hv hw
    obtain ⟨b, hb⟩ := vecGet_of_range visited w hwr.1 (by omega)
    cases b with
    | true =>
      obtain ⟨v1, added, hrun, hblk, hall⟩ := ihl visited out hlen hrest hcnt
      refine ⟨v1, added, ?_, hblk, ?_⟩
      · simp [forEach, visitIfNew, hb, hrun]
      · intro x hx
        rcases List.mem_cons.1 hx with rfl | hx
        · exact (hblk.marked x).2 (Or.inl hb)
        · exact hall x hx
    | false =>
      have hnot : ¬ Marked visited w := by unfold Marked; rw [hb]; simp
      obtain ⟨v1, new, hcall, hblk1, hcl⟩ := ih w visited out hlen hwr.1 hwr.2 hnot hcnt
      have hblkw := dfsBlock_ofCall hw hwr.1 (by omega) hnot hblk1 hcl
      have hlen1 : (v1.length : Int) = g.VerticesCount := by rw [hblkw.len]; exact hlen
      obtain ⟨v2, added, hrun, hblk2, hall⟩ :=
        ihl v1 (out ++ w :: new) hlen1 hrest (le_trans hblkw.count hcnt)
      refine ⟨v2, (w :: new) ++ added, ?_, dfsBlock_append hblkw hblk2, ?_⟩
      · simp [forEach, visitIfNew, hb, hcall, hrun]
      · intro x hx
        rcases List.mem_cons.1 hx with rfl | hx
        · exact (hblk2.marked x).2 (Or.inl ((hblkw.marked x).2 (Or.inr (List.mem_cons_self _ _))))
        · exact hall x hx

theorem DFS_spec {g : IGraph} (hv : ValidSuccessors g) : ∀ fuel, DFSCallSpec g fuel := by
  intro fuel
  induction fuel with
  | zero =>
    intro v visited out hlen h0 h1 hnew hcnt
    have hfalse := (not_marked_iff h0 (by omega)).1 hnew
    have := count_vecSet hfalse (vecSet_of_range visited v true h0 (by omega))
    omega
  | succ fuel ih =>
    intro v visited out hlen h0 h1 hnew hcnt
    have hset := vecSet_of_range visited v true h0 (by omega)
    have hfalse := (not_marked_iff h0 (by omega)).1 hnew
    have hc := count_vecSet hfalse hset
    obtain ⟨next, hnext, hval⟩ := hv v h0 h1
    have hedges : ∀ w ∈ next, Edge g v w := fun w hw => ⟨h0, h1, next, hnext, hw⟩
    have hlen1 : ((visited.set v.toNat true).length : Int) = g.VerticesCount := by
      simpa using hlen
    obtain ⟨v1, added, hrun, hblk, hall⟩ :=
      forEach_DFS_spec hv fuel v ih next (visited.set v.toNat true) (out ++ [v]) hlen1 hedges
        (by omega)
    refine ⟨v1, added, ?_, hblk, ?_⟩
    · simp [DFS, hset, hnext, hrun]
    · rintro w ⟨_, _, next1, hn1, hw1⟩
      rw [hnext] at hn1
      cases hn1
      exact hall w hw1

theorem mainDFS_spec (g : IGraph) (fuel : Nat) (hN : 0 ≤ g.VerticesCount)
    (hv : ValidSuccessors g) (hfuel : g.VerticesCount.toNat ≤ fuel) :
    ∃ out, mainDFS g fuel = some out ∧ out.Perm (indices g.VerticesCount) := by
  have hlen0 : ((List.replicate g.VerticesCount.toNat false).length : Int) = g.VerticesCount := by
    simp only [List.length_replicate]; omega
  obtain ⟨fin, hrun, ⟨hlen, hnd, hmk⟩, hall, _⟩ :=
    forEach_visitIfNew_spec (DFS g fuel)
      (fun st => (st.1.length : Int) = g.VerticesCount ∧ st.2.Nodup ∧
        ∀ x, Marked st.1 x ↔ x ∈ st.2) g.VerticesCount
      (fun st hst => hst.1)
      (fun i st hst hi0 hi1 hnew => by
        obtain ⟨hl, hnd, hmk⟩ := hst
        obtain ⟨v1, new, hcall, hblk, _⟩ :=
          DFS_spec hv fuel i st.1 st.2 hl hi0 hi1 hnew (count_false_le_fuel hl hfuel)
        have hset := vecSet_of_range st.1 i true hi0 (by omega)
        have hm1 := marked_vecSet hset
        have hmk1 : ∀ x, Marked v1 x ↔ x ∈ st.2 ++ i :: new := by
          intro x
          rw [hblk.marked, hm1, hmk, List.mem_append, List.mem_cons]
          tauto
        refine ⟨(v1, st.2 ++ i :: new), hcall, ⟨?_, ?_, hmk1⟩, ?_, ?_⟩
        · simp only [hblk.len]; simpa using hl
        · refine List.Nodup.append hnd (List.nodup_cons.2 ⟨?_, hblk.nodup⟩) ?_
          · intro hin
            exact hblk.fresh i hin ((hm1 i).2 (Or.inl rfl))
          · intro x hx1 hx2
            rcases List.mem_cons.1 hx2 with rfl | hx2
            · exact hnew ((hmk x).2 hx1)
            · exact hblk.fresh x hx2 ((hm1 x).2 (Or.inr ((hmk x).2 hx1)))
        · exact (hmk1 i).2 (by simp)
        · intro x hx
          exact (hmk1 x).2 (List.mem_append_left _ ((hmk x).1 hx)))
      (indices g.VerticesCount) (List.replicate g.VerticesCount.toNat false, [])
      ⟨hlen0, List.nodup_nil, fun x => by
        simp only [List.not_mem_nil, iff_false]
        exact not_marked_replicate _ x⟩
      (fun i hi => (mem_indices _ i).1 hi)
  refine ⟨fin.2, ?_, ?_⟩
  · simp [mainDFS, hN, hrun]
  · refine perm_indices hnd ?_
    intro x
    constructor
    · intro hx
      have := marked_range ((hmk x).2 hx)
      omega
    · intro hx
      exact (hmk x).1 (hall x ((mem_indices _ x).2 hx))

/-! ## Topological sort -/

theorem topoBlock_nil (g : IGraph) (root : Int) (visited : List Bool) :
    TopoBlock g root visited visited [] :=
  ⟨rfl, by simp, List.nodup_nil, by simp, by simp, by simp, le_refl _⟩

/-- The later stretch `b2` is pushed in front of the earlier stretch `b1`. -/
theorem topoBlock_append {g : IGraph} {root : Int} {va vb vc : List Bool} {b1 b2 : List Int}
    (h1 : TopoBlock g root va vb b1) (h2 : TopoBlock g root vb vc b2) :
    TopoBlock g root va vc (b2 ++ b1) := by
  constructor
  · rw [h2.len, h1.len]
  · intro x
    rw [h2.marked, h1.marked, List.mem_append]
    tauto
  · refine List.Nodup.append h2.nodup h1.nodup ?_
    intro x hx2 hx1
    exact h2.fresh x hx2 ((h1.marked x).2 (Or.inr hx1))
  · intro x hx
    rcases List.mem_append.1 hx with hx | hx
    · exact fun hm => h2.fresh x hx ((h1.marked x).2 (Or.inl hm))
    · exact h1.fresh x hx
  · intro x hx
    rcases List.mem_append.1 hx with hx | hx
    · exact h2.reach x hx
    · exact h1.reach x hx
  · intro hac x hx w hw
    rcases List.mem_append.1 hx with hx | hx
    · rcases h2.order hac x hx w hw with hm | hb
      · rcases (h1.marked w).1 hm with hm | hin
        · exact Or.inl hm
        · exact Or.inr (before_of_mem hx hin)
      · exact Or.inr (before_append_right b1 hb)
    · rcases h1.order hac x hx w hw with hm | hb
      · exact Or.inl hm
      · exact Or.inr (before_append_left b2 hb)
  · exact le_trans h2.count h1.count

theorem topoBlock_reroot {g : IGraph} {root w : Int} {va vb : List Bool} {b : List Int}
    (hw : Edge g root w) (h : TopoBlock g w va vb b) : TopoBlock g root va vb b :=
  ⟨h.len, h.marked, h.nodup, h.fresh,
    fun x hx => Relation.ReflTransGen.trans (Relation.ReflTransGen.single hw) (h.reach x hx),
    h.order, h.count⟩

theorem forEach_topo_spec {g : IGraph} (hv : ValidSuccessors g) (fuel : Nat) (root : Int)
    (ih : TopoCallSpec g fuel) :
    ∀ (ws : List Int) (visited : List Bool) (sorted : List Int),
      (visited.length : Int) = g.VerticesCount → (∀ w ∈ ws, Edge g root w) →
      visited.count false ≤ fuel →
      ∃ visited1 added,
        forEach (visitIfNew (topologicalSortInternal g fuel)) ws (visited, sorted)
          = some (visited1, added ++ sorted) ∧
        TopoBlock g root visited visited1 added ∧ ∀ w ∈ ws, Marked visited1 w := by
  intro ws
  induction ws with
  | nil =>
    intro visited sorted _ _ _
    exact ⟨visited, [], by simp [forEach], topoBlock_nil g root visited, by simp⟩
  | cons w rest ihl =>
    intro visited sorted hlen hedges hcnt
    have hw := hedges w (List.mem_cons_self _ _)
    have hrest : ∀ x ∈ rest, Edge g root x := fun x hx => hedges x (List.mem_cons_of_mem _ hx)
    have hwr := edge_range hv hw
    obtain ⟨b, hb⟩ := vecGet_of_range visited w hwr.1 (by omega)
    cases b with
    | true =>
      obtain ⟨v1, added, hrun, hblk, hall⟩ := ihl visited sorted hlen hrest hcnt
      refine ⟨v1, added, ?_, hblk, ?_⟩
      · simp [forEach, visitIfNew, hb, hrun]
      · intro x hx
        rcases List.mem_cons.1 hx with rfl | hx
        · exact (hblk.marked x).2 (Or.inl hb)
        · exact hall x hx
    | false =>
      have hnot : ¬ Marked visited w := by unfold Marked; rw [hb]; simp
      obtain ⟨v1, new, hcall, hblk1⟩ := ih w visited sorted hlen hwr.1 hwr.2 hnot hcnt
      have hblkw := topoBlock_reroot hw hblk1
      have hlen1 : (v1.length : Int) = g.VerticesCount := by rw [hblkw.len]; exact hlen
      obtain ⟨v2, added, hrun, hblk2, hall⟩ :=
        ihl v1 (w :: new ++ sorted) hlen1 hrest (le_trans hblkw.count hcnt)
      refine ⟨v2, added ++ (w :: new), ?_, topoBlock_append hblkw hblk2, ?_⟩
      · simpa [forEach, visitIfNew, hb, hcall] using hrun
      · intro x hx
        rcases List.mem_cons.1 hx with rfl | hx
        · exact (hblk2.marked x).2 (Or.inl ((hblkw.marked x).2 (Or.inr (List.mem_cons_self _ _))))
        · exact hall x hx

theorem topologicalSortInternal_spec {g : IGraph} (hv : ValidSuccessors g) :
    ∀ fuel, TopoCallSpec g fuel := by
  intro fuel
  induction fuel with
  | zero =>
    intro v visited sorted hlen h0 h1 hnew hcnt
    have hfalse := (not_marked_iff h0 (by omega)).1 hnew
    have := count_vecSet hfalse (vecSet_of_range visited v true h0 (by omega))
    omega
  | succ fuel ih =>
    intro v visited sorted hlen h0 h1 hnew hcnt
    have hset := vecSet_of_range visited v true h0 (by omega)
    have hfalse := (not_marked_iff h0 (by omega)).1 hnew
    have hc := count_vecSet hfalse hset
    have hm1 := marked_vecSet hset
    obtain ⟨next, hnext, hval⟩ := hv v h0 h1
    have hedges : ∀ w ∈ next, Edge g v w := fun w hw => ⟨h0, h1, next, hnext, hw⟩
    have hlen1 : ((visited.set v.toNat true).length : Int) = g.VerticesCount := by
      simpa using hlen
    obtain ⟨v1, added, hrun, hblk, hall⟩ :=
      forEach_topo_spec hv fuel v ih next (visited.set v.toNat true) sorted hlen1 hedges
        (by omega)
    refine ⟨v1, added, ?_, ?_⟩
    · simp [topologicalSortInternal, hset, hnext, hrun]
    · constructor
      · rw [hblk.len]; simp
      · intro x
        rw [hblk.marked, hm1, List.mem_cons]
        tauto
      · refine List.nodup_cons.2 ⟨?_, hblk.nodup⟩
        intro hin
        exact hblk.fresh v hin ((hm1 v).2 (Or.inl rfl))
      · intro x hx
        rcases List.mem_cons.1 hx with rfl | hx
        · exact hnew
        · exact fun hm => hblk.fresh x hx ((hm1 x).2 (Or.inr hm))
      · intro x hx
        rcases List.mem_cons.1 hx with rfl | hx
        · exact Relation.ReflTransGen.refl
        · exact hblk.reach x hx
      · intro hac x hx w hw
        rcases List.mem_cons.1 hx with hxv | hxa
        · rw [hxv] at hw ⊢
          obtain ⟨_, _, next1, hn1, hw1⟩ := hw
          rw [hnext] at hn1
          cases hn1
          rcases (hblk.marked w).1 (hall w hw1) with hm | hin
          · rcases (hm1 w).1 hm with hwv | hm0
            · rw [hwv] at hw1
              exact absurd (Relation.TransGen.single (hedges v hw1)) (hac v)
            · exact Or.inl hm0
          · exact Or.inr (before_cons_head hin)
        · rcases hblk.order hac x hxa w hw with hm | hb
          · rcases (hm1 w).1 hm with hwv | hm0
            · rw [hwv] at hw
              exact absurd (Relation.TransGen.tail' (hblk.reach x hxa) hw) (hac v)
            · exact Or.inl hm0
          · exact Or.inr (before_append_left [v] hb)
      · have := hblk.count
        omega

theorem indexOf_lt_of_before {a b : Int} {l : List Int} (hnd : l.Nodup) (h : Before a b l) :
    a ∈ l ∧ b ∈ l ∧ l.indexOf a < l.indexOf b := by
  obtain ⟨l1, l2, rfl, ha⟩ := h
  have hb : b ∉ l1 := by
    intro hb
    have := (List.nodup_append.1 hnd).2.2
    exact this hb (List.mem_cons_self _ _)
  refine ⟨List.mem_append_left _ ha, by simp, ?_⟩
  rw [List.indexOf_append_of_mem ha, List.indexOf_append_of_not_mem hb, List.indexOf_cons_self]
  have := List.indexOf_lt_length.2 ha
  omega

theorem topologicalSort_spec (g : IGraph) (fuel : Nat) (hN : 0 ≤ g.VerticesCount)
    (hv : ValidSuccessors g) (hfuel : g.VerticesCount.toNat ≤ fuel) :
    ∃ sorted, topologicalSort g fuel = some sorted ∧ sorted.Perm (indices g.VerticesCount) ∧
      (Acyclic g → ∀ u w, Edge g u w → Before u w sorted) := by
  have hlen0 : ((List.replicate g.VerticesCount.toNat false).length : Int) = g.VerticesCount := by
    simp only [List.length_replicate]; omega
  obtain ⟨fin, hrun, ⟨hlen, hnd, hmk, hord⟩, hall, _⟩ :=
    forEach_visitIfNew_spec (topologicalSortInternal g fuel)
      (fun st => (st.1.length : Int) = g.VerticesCount ∧ st.2.Nodup ∧
        (∀ x, Marked st.1 x ↔ x ∈ st.2) ∧
        (Acyclic g → ∀ x ∈ st.2, ∀ w, Edge g x w → Before x w st.2)) g.VerticesCount
      (fun st hst => hst.1)
      (fun i st hst hi0 hi1 hnew => by
        obtain ⟨hl, hnd, hmk, hord⟩ := hst
        obtain ⟨v1, new, hcall, hblk⟩ :=
          topologicalSortInternal_spec hv fuel i st.1 st.2 hl hi0 hi1 hnew
            (count_false_le_fuel hl hfuel)
        have hmk1 : ∀ x, Marked v1 x ↔ x ∈ i :: new ++ st.2 := by
          intro x
          rw [hblk.marked, hmk, List.mem_append]
          tauto
        refine ⟨(v1, i :: new ++ st.2), hcall, ⟨?_, ?_, hmk1, ?_⟩, ?_, ?_⟩
        · simp only [hblk.len]; exact hl
        · refine List.Nodup.append hblk.nodup hnd ?_
          intro x hx1 hx2
          exact hblk.fresh x hx1 ((hmk x).2 hx2)
        · intro hac x hx w hw
          rcases List.mem_append.1 hx with hx | hx
          · rcases hblk.order hac x hx w hw with hm | hb
            · exact before_of_mem hx ((hmk w).1 hm)
            · exact before_append_right st.2 hb
          · exact before_append_left (i :: new) (hord hac x hx w hw)
        · exact (hmk1 i).2 (by simp)
        · intro x hx
          exact (hmk1 x).2 (List.mem_append_right _ ((hmk x).1 hx)))
      (indices g.VerticesCount) (List.replicate g.VerticesCount.toNat false, [])
      ⟨hlen0, List.nodup_nil, fun x => by
        simp only [List.not_mem_nil, iff_false]
        exact not_marked_replicate _ x, by simp⟩
      (fun i hi => (mem_indices _ i).1 hi)
  refine ⟨fin.2, ?_, ?_, ?_⟩
  · simp [topologicalSort, hN, hrun]
  · refine perm_indices hnd ?_
    intro x
    constructor
    · intro hx
      have := marked_range ((hmk x).2 hx)
      omega
    · intro hx
      exact (hmk x).1 (hall x ((mem_indices _ x).2 hx))
  · intro hac u w huw
    have hu : u ∈ fin.2 := (hmk u).1 (hall u ((mem_indices _ u).2 ⟨huw.1, huw.2.1⟩))
    exact hord hac u hu w huw

/-! ## Checking the hypotheses on a concrete graph -/

theorem validSuccessors_of_check {g : IGraph} (h : checkSuccessors g = true) :
    ValidSuccessors g := by
  intro v h0 h1
  unfold checkSuccessors at h
  rw [List.all_eq_true] at h
  have hv := h v ((mem_indices _ v).2 ⟨h0, h1⟩)
  cases hn : g.GetNextVertices v with
  | none => rw [hn] at hv; simp at hv
  | some next =>
    rw [hn] at hv
    simp only [List.all_eq_true, decide_eq_true_eq] at hv
    exact ⟨next, rfl, hv⟩

theorem acyclic_of_rank {g : IGraph} (rank : Int → Nat)
    (h : ∀ u w, Edge g u w → rank u < rank w) : Acyclic g := by
  have key : ∀ a b, Relation.TransGen (Edge g) a b → rank a < rank b := by
    intro a b hab
    induction hab with
    | single hab => exact h _ _ hab
    | tail _ hbc ih => exact lt_trans ih (h _ _ hbc)
  intro v hvv
  exact lt_irrefl _ (key v v hvv)

theorem acyclic_of_check {g : IGraph} (rank : Int → Nat) (h : checkRank g rank = true) :
    Acyclic g := by
  apply acyclic_of_rank rank
  rintro u w ⟨h0, h1, next, hn, hw⟩
  unfold checkRank at h
  rw [List.all_eq_true] at h
  have hu := h u ((mem_indices _ u).2 ⟨h0, h1⟩)
  rw [hn] at hu
  simp only [List.all_eq_true, decide_eq_true_eq] at hu
  exact hu w hw

theorem demo_built :
    ((ListGraph.ofSize 7).bind fun g => addEdges (.list g) demoEdges)
      = some (.list demoListGraph) := by
  decide

theorem demo_valid : ValidSuccessors (.list demoListGraph) :=
  validSuccessors_of_check (by decide)

theorem demo_acyclic : Acyclic (.list demoListGraph) :=
  acyclic_of_check demoRank (by decide)

theorem demo_topologicalSort : topologicalSort (.list demoListGraph) 7 = some [0, 1, 5, 3, 6, 4, 2] := by
  decide

theorem demo_mainBFS : mainBFS (.list demoListGraph) 7 = some [0, 1, 5, 2, 3, 6, 4] := by
  decide

theorem demo_mainDFS : mainDFS (.list demoListGraph) 7 = some [0, 1, 2, 3, 4, 6, 5] := by
  decide

/-! ## Predecessors and successors -/

theorem mem_prevScan (vertex x : Int) (rows : List (List Int)) :
    ∀ k : Int, x ∈ prevScan vertex k rows ↔
      k ≤ x ∧ ∃ row, rows.get? (x - k).toNat = some row ∧ vertex ∈ row := by
  induction rows with
  | nil => intro k; simp [prevScan]
  | cons row rest ih =>
    intro k
    simp only [prevScan, List.mem_append, List.mem_map, List.mem_filter, beq_iff_eq, ih]
    constructor
    · rintro (⟨a, ⟨ha, rfl⟩, rfl⟩ | ⟨hk, r, hr, hv⟩)
      · exact ⟨le_refl _, row, by simp, ha⟩
      · refine ⟨by omega, r, ?_, hv⟩
        have : (x - k).toNat = (x - (k + 1)).toNat + 1 := by omega
        rw [this]
        simpa using hr
    · rintro ⟨hk, r, hr, hv⟩
      by_cases hxk : x = k
      · subst hxk
        simp at hr
        subst hr
        exact Or.inl ⟨vertex, ⟨hv, rfl⟩, rfl⟩
      · refine Or.inr ⟨by omega, r, ?_, hv⟩
        have : (x - k).toNat = (x - (k + 1)).toNat + 1 := by omega
        rw [this] at hr
        simpa using hr

theorem mem_prevSetScan (vertex x : Int) (sets : List (List Int)) :
    ∀ k : Int, x ∈ prevSetScan vertex k sets ↔
      k ≤ x ∧ ∃ s, sets.get? (x - k).toNat = some s ∧ vertex ∈ s := by
  induction sets with
  | nil => intro k; simp [prevSetScan]
  | cons s rest ih =>
    intro k
    simp only [prevSetScan, List.mem_append, ih]
    constructor
    · rintro (h | ⟨hk, r, hr, hv⟩)
      · by_cases hin : vertex ∈ s
        · simp only [hin, if_true, List.mem_singleton] at h
          subst h
          exact ⟨le_refl _, s, by simp, hin⟩
        · simp [hin] at h
      · refine ⟨by omega, r, ?_, hv⟩
        have : (x - k).toNat = (x - (k + 1)).toNat + 1 := by omega
        rw [this]
        simpa using hr
    · rintro ⟨hk, r, hr, hv⟩
      by_cases hxk : x = k
      · subst hxk
        simp at hr
        subst hr
        exact Or.inl (by simp [hv])
      · refine Or.inr ⟨by omega, r, ?_, hv⟩
        have : (x - k).toNat = (x - (k + 1)).toNat + 1 := by omega
        rw [this] at hr
        simpa using hr

theorem rows_prev_next (rows : List (List Int)) (v w : Int) (next : List Int)
    (hn : vecGet rows w = some next) : w ∈ prevScan v 0 rows ↔ v ∈ next := by
  rw [mem_prevScan]
  rw [vecGet_some_iff] at hn
  simp only [sub_zero]
  constructor
  · rintro ⟨_, row, hr, hv⟩
    rw [hn.2] at hr
    cases hr
    exact hv
  · intro hv
    exact ⟨hn.1, next, hn.2, hv⟩

theorem sets_prev_next (sets : List (List Int)) (v w : Int) (next : List Int)
    (hn : vecGet sets w = some next) : w ∈ prevSetScan v 0 sets ↔ v ∈ next := by
  rw [mem_prevSetScan]
  rw [vecGet_some_iff] at hn
  simp only [sub_zero]
  constructor
  · rintro ⟨_, row, hr, hv⟩
    rw [hn.2] at hr
    cases hr
    exact hv
  · intro hv
    exact ⟨hn.1, next, hn.2, hv⟩

/-- C6. In each of the four representations and in every state, whenever
`GetPrevVertices(v)` and `GetNextVertices(w)` both succeed, `w` is an element of
the former exactly when `v` is an element of the latter. -/
theorem prev_next_inverse (g : IGraph) (v w : Int) (prev next : List Int)
    (hp : g.GetPrevVertices v = some prev) (hn : g.GetNextVertices w = some next) :
    w ∈ prev ↔ v ∈ next := by
  cases g with
  | list g =>
    simp only [IGraph.GetPrevVertices, ListGraph.GetPrevVertices] at hp
    simp only [IGraph.GetNextVertices, ListGraph.GetNextVertices] at hn
    split at hp
    · cases hp
      split at hn
      · exact rows_prev_next _ v w next hn
      · cases hn
    · cases hp
  | matrix g =>
    simp only [IGraph.GetPrevVertices, MatrixGraph.GetPrevVertices] at hp
    simp only [IGraph.GetNextVertices, MatrixGraph.GetNextVertices] at hn
    split at hp
    · cases hp
      split at hn
      · exact rows_prev_next _ v w next hn
      · cases hn
    · cases hp
  | arc g =>
    simp only [IGraph.GetPrevVertices, ArcGraph.GetPrevVertices] at hp
    simp only [IGraph.GetNextVertices, ArcGraph.GetNextVertices] at hn
    split at hp
    · cases hp
      split at hn
      · cases hn
        simp only [List.mem_map, List.mem_filter, beq_iff_eq]
        constructor
        · rintro ⟨e, ⟨he, h2⟩, h1⟩
          exact ⟨e, ⟨he, h1⟩, h2⟩
        · rintro ⟨e, ⟨he, h1⟩, h2⟩
          exact ⟨e, ⟨he, h2⟩, h1⟩
      · cases hn
    · cases hp
  | set g =>
    simp only [IGraph.GetPrevVertices, SetGraph.GetPrevVertices] at hp
    simp only [IGraph.GetNextVertices, SetGraph.GetNextVertices] at hn
    split at hp
    · cases hp
      split at hn
      · exact sets_prev_next _ v w next hn
      · cases hn
    · cases hp

theorem prev_next_inverse_witness :
    (IGraph.list demoListGraph).GetPrevVertices 4 = some [3, 5, 6] ∧
    (IGraph.list demoListGraph).GetNextVertices 5 = some [4, 6] ∧
    ((5 : Int) ∈ [3, 5, 6] ↔ (4 : Int) ∈ [4, 6]) :=
  ⟨by decide, by decide,
    prev_next_inverse (.list demoListGraph) 4 5 [3, 5, 6] [4, 6] (by decide) (by decide)⟩

/-! ## Construction with a size, and the conversion chain of `main` -/

/-- C9 (failing inputs). `SetGraph(3)` leaves `vertexCount` without a value, so
`VerticesCount()` returns whatever the member holds and not `3`; and on
`MatrixGraph(1)`, whose only row is empty, `AddEdge(0, 0)` passes both assertions
and then writes outside the row. -/
theorem verticesCount_ofSize_fails :
    (∀ indeterminate : Int,
      (SetGraph.ofSize 3 indeterminate).map SetGraph.VerticesCount = some indeterminate) ∧
    (SetGraph.ofSize 3 0).map SetGraph.VerticesCount ≠ some 3 ∧
    (MatrixGraph.ofSize 1).map MatrixGraph.VerticesCount = some 1 ∧
    (MatrixGraph.ofSize 1).bind (fun m => m.AddEdge 0 0) = none := by
  refine ⟨fun _ => rfl, by decide, by decide, by decide⟩

/-- C10 (failing input). `ArcGraph(1)` holds the pair `(0, 0)`: vertex `0` is
reported as its own successor and its own predecessor. -/
theorem arcGraph_ofSize_has_edges :
    (ArcGraph.ofSize 1).bind (fun a => a.GetNextVertices 0) = some [0] ∧
    (ArcGraph.ofSize 1).bind (fun a => a.GetPrevVertices 0) = some [0] ∧
    (ArcGraph.ofSize 3).bind (fun a => a.GetNextVertices 0) = some [0, 0, 0] := by
  decide

/-- C7 (failing input). For `SetGraph(1)` whose uninitialised `vertexCount`
holds `2`, the conversion to a `ListGraph` asks for the successors of vertex `1`
and fails the assertion of `SetGraph::GetNextVertices`; with `-1` the `resize`
of the conversion throws. -/
theorem roundTrip_setGraph_ofSize_fails :
    (SetGraph.ofSize 1 2).map SetGraph.VerticesCount = some 2 ∧
    (SetGraph.ofSize 1 2).bind (fun s => s.GetNextVertices 1) = none ∧
    (SetGraph.ofSize 1 2).bind (fun s => ListGraph.ofGraph (.set s)) = none ∧
    (SetGraph.ofSize 1 (-1)).bind (fun s => ListGraph.ofGraph (.set s)) = none := by
  decide

/-- C8 (failing input). For the `ListGraph` with two vertices and the edge
`(0, 1)`, the chain yields an `ArcGraph` with one pair; its `GetPrevVertices(1)`
fails the assertion `vertex < arrVert.size()`, while the `ListGraph` reports the
predecessor `0` of vertex `1`. -/
theorem chain_arcGraph_prev_fails :
    ((ListGraph.ofSize 2).bind fun g => g.AddEdge 0 1) = some oneEdgeListGraph ∧
    oneEdgeListGraph.GetPrevVertices 1 = some [0] ∧
    (MatrixGraph.ofGraph (.list oneEdgeListGraph)).bind
      (fun m => ArcGraph.ofGraph (.matrix m)) = some ⟨[(0, 1)], 2⟩ ∧
    ((MatrixGraph.ofGraph (.list oneEdgeListGraph)).bind fun m =>
      (ArcGraph.ofGraph (.matrix m)).bind fun a => a.GetPrevVertices 1) = none ∧
    ((MatrixGraph.ofGraph (.list oneEdgeListGraph)).bind fun m =>
      (ArcGraph.ofGraph (.matrix m)).bind fun a => a.GetNextVertices 1) = some [] := by
  decide

/-! ## Construction from another graph -/

theorem forEach_append {σ : Type} (body : Int → σ → Option σ) (xs ys : List Int) :
    ∀ st : σ, forEach body (xs ++ ys) st = (forEach body xs st).bind (forEach body ys) := by
  induction xs with
  | nil => intro st; simp [forEach]
  | cons x xs ih =>
    intro st
    simp only [List.cons_append, forEach]
    cases body x st with
    | none => simp
    | some st1 => simp [ih]

theorem range_map_succ (n : Nat) :
    (List.range (n + 1)).map Int.ofNat = (List.range n).map Int.ofNat ++ [(n : Int)] := by
  rw [List.range_succ, List.map_append]
  rfl

theorem copyRows_spec (f : Int → Option (List Int)) (m : Nat) :
    ∀ n, n ≤ m → (∀ i : Nat, i < n → ∃ l, f i = some l) →
      ∃ rows,
        forEach (fun i rows => (f i).bind fun next => vecSet rows i next)
          ((List.range n).map Int.ofNat) (List.replicate m []) = some rows ∧
        rows.length = m ∧ ∀ i : Nat, i < n → rows.get? i = f i := by
  intro n
  induction n with
  | zero =>
    intro _ _
    exact ⟨List.replicate m [], by simp [forEach], by simp, by simp⟩
  | succ n ih =>
    intro hn hf
    obtain ⟨rows, hrun, hlen, hget⟩ := ih (by omega) (fun i hi => hf i (by omega))
    obtain ⟨l, hl⟩ := hf n (by omega)
    have hset : vecSet rows (n : Int) l = some (rows.set n l) := by
      rw [vecSet_of_range rows (n : Int) l (by omega) (by omega)]
      simp
    refine ⟨rows.set n l, ?_, by simpa using hlen, ?_⟩
    · rw [range_map_succ, forEach_append, hrun]
      simp [forEach, hl, hset]
    · intro i hi
      by_cases hin : i = n
      · subst hin
        rw [hl, List.get?_eq_getElem?, List.getElem?_set]
        simp [hlen]
        omega
      · have := hget i (by omega)
        rw [← this, List.get?_eq_getElem?, List.get?_eq_getElem?, List.getElem?_set]
        simp [Ne.symm hin]

theorem forEach_push_arcs (frm : Int) (next : List Int) :
    ∀ arcs : List (Int × Int),
      forEach (fun dst arcs1 => some (arcs1 ++ [(frm, dst)])) next arcs
        = some (arcs ++ next.map fun dst => (frm, dst)) := by
  induction next with
  | nil => intro arcs; simp [forEach]
  | cons d rest ih =>
    intro arcs
    simp [forEach, ih]

theorem filter_arcs_of_vertex (frm v : Int) (next : List Int) :
    ((next.map fun dst => (frm, dst)).filter fun edge => edge.1 == v).map (fun edge => edge.2)
      = if frm = v then next else [] := by
  induction next with
  | nil => simp
  | cons d rest ih =>
    by_cases h : frm = v
    · simp only [h, if_true] at ih ⊢
      simp [List.filter_cons, ih]
    · simp only [h, if_false] at ih ⊢
      simp [List.filter_cons, h, ih]

theorem arcsLoop_spec (f : Int → Option (List Int)) :
    ∀ n : Nat, (∀ i : Nat, i < n → ∃ l, f i = some l) →
      ∃ arcs,
        forEach (fun frm arcs => (f frm).bind fun next =>
            forEach (fun dst arcs1 => some (arcs1 ++ [(frm, dst)])) next arcs)
          ((List.range n).map Int.ofNat) [] = some arcs ∧
        ∀ v : Int, some ((arcs.filter fun edge => edge.1 == v).map fun edge => edge.2)
          = if 0 ≤ v ∧ v < n then f v else some [] := by
  intro n
  induction n with
  | zero =>
    intro _
    refine ⟨[], by simp [forEach], ?_⟩
    intro v
    have : ¬ (0 ≤ v ∧ v < ((0 : Nat) : Int)) := by omega
    rw [if_neg this]
    simp
  | succ n ih =>
    intro hf
    obtain ⟨arcs, hrun, hfil⟩ := ih (fun i hi => hf i (by omega))
    obtain ⟨l, hl⟩ := hf n (by omega)
    refine ⟨arcs ++ l.map fun dst => ((n : Int), dst), ?_, ?_⟩
    · rw [range_map_succ, forEach_append, hrun]
      simp [forEach, hl, forEach_push_arcs]
    · intro v
      rw [List.filter_append, List.map_append, filter_arcs_of_vertex]
      have hold := hfil v
      by_cases hvn : (n : Int) = v
      · subst hvn
        have h1 : ¬ (0 ≤ (n : Int) ∧ (n : Int) < (n : Int)) := by omega
        have h2 : 0 ≤ (n : Int) ∧ (n : Int) < ((n + 1 : Nat) : Int) := by omega
        rw [if_neg h1] at hold
        simp only [Option.some.injEq] at hold
        rw [hold, if_pos h2, hl]
        simp
      · simp only [hvn, if_false, List.append_nil]
        rw [hold]
        by_cases hr : 0 ≤ v ∧ v < (n : Int)
        · have h2 : 0 ≤ v ∧ v < ((n + 1 : Nat) : Int) := by omega
          rw [if_pos hr, if_pos h2]
        · have h2 : ¬ (0 ≤ v ∧ v < ((n + 1 : Nat) : Int)) := by omega
          rw [if_neg hr, if_neg h2]

theorem mem_setInsert (s : List Int) (d x : Int) : x ∈ setInsert s d ↔ x ∈ s ∨ x = d := by
  unfold setInsert
  by_cases h : d ∈ s
  · simp only [h, if_true]
    constructor
    · exact Or.inl
    · rintro (hx | rfl)
      · exact hx
      · exact h
  · simp [h]

theorem nodup_setInsert {s : List Int} (d : Int) (h : s.Nodup) : (setInsert s d).Nodup := by
  unfold setInsert
  by_cases hd : d ∈ s
  · simpa [hd] using h
  · simp only [hd, if_false]
    refine List.Nodup.append h (List.nodup_singleton d) ?_
    intro x hx hx1
    simp only [List.mem_singleton] at hx1
    subst hx1
    exact hd hx

theorem mem_foldl_setInsert (next : List Int) :
    ∀ (s : List Int) (x : Int), x ∈ next.foldl setInsert s ↔ x ∈ s ∨ x ∈ next := by
  induction next with
  | nil => intro s x; simp
  | cons d rest ih =>
    intro s x
    simp only [List.foldl_cons, ih, mem_setInsert, List.mem_cons]
    tauto

theorem nodup_foldl_setInsert (next : List Int) :
    ∀ s : List Int, s.Nodup → (next.foldl setInsert s).Nodup := by
  induction next with
  | nil => intro s h; simpa using h
  | cons d rest ih =>
    intro s h
    simp only [List.foldl_cons]
    exact ih _ (nodup_setInsert d h)

theorem forEach_insert_spec (frm : Int) (next : List Int) :
    ∀ (sets : List (List Int)) (s : List Int), vecGet sets frm = some s →
      ∃ sets1,
        forEach (fun dst sets1 => (vecGet sets1 frm).bind fun s =>
            vecSet sets1 frm (setInsert s dst)) next sets = some sets1 ∧
        sets1.length = sets.length ∧ vecGet sets1 frm = some (next.foldl setInsert s) ∧
        ∀ j, j ≠ frm → vecGet sets1 j = vecGet sets j := by
  induction next with
  | nil =>
    intro sets s hs
    exact ⟨sets, by simp [forEach], rfl, by simpa using hs, fun _ _ => rfl⟩
  | cons d rest ih =>
    intro sets s hs
    have hr := vecGet_range hs
    have hset := vecSet_of_range sets frm (setInsert s d) hr.1 hr.2
    have hget := vecGet_vecSet hset
    obtain ⟨sets1, hrun, hlen, hfrm, hother⟩ :=
      ih (sets.set frm.toNat (setInsert s d)) (setInsert s d) (by rw [hget]; simp)
    refine ⟨sets1, ?_, by simpa using hlen, by simpa using hfrm, ?_⟩
    · simp [forEach, hs, hset, hrun]
    · intro j hj
      rw [hother j hj, hget j, if_neg hj]

theorem setsLoop_spec (f : Int → Option (List Int)) (m : Nat) :
    ∀ n, n ≤ m → (∀ i : Nat, i < n → ∃ l, f i = some l) →
      ∃ sets,
        forEach (fun frm sets => (f frm).bind fun next =>
            forEach (fun dst sets1 => (vecGet sets1 frm).bind fun s =>
              vecSet sets1 frm (setInsert s dst)) next sets)
          ((List.range n).map Int.ofNat) (List.replicate m []) = some sets ∧
        sets.length = m ∧
        (∀ i : Nat, i < n → ∃ s l, vecGet sets (i : Int) = some s ∧ f i = some l ∧ s.Nodup ∧
          ∀ x, x ∈ s ↔ x ∈ l) ∧
        ∀ i : Nat, n ≤ i → i < m → vecGet sets (i : Int) = some [] := by
  intro n
  induction n with
  | zero =>
    intro _ _
    refine ⟨List.replicate m [], by simp [forEach], by simp, by simp, ?_⟩
    intro i _ hi
    rw [vecGet_some_iff]
    refine ⟨by omega, ?_⟩
    simp [List.get?_eq_getElem?, List.getElem?_replicate, hi]
  | succ n ih =>
    intro hn hf
    obtain ⟨sets, hrun, hlen, hdone, hrest⟩ := ih (by omega) (fun i hi => hf i (by omega))
    obtain ⟨l, hl⟩ := hf n (by omega)
    have hempty := hrest n (le_refl _) (by omega)
    obtain ⟨sets1, hrun1, hlen1, hfrm, hother⟩ := forEach_insert_spec (n : Int) l sets [] hempty
    refine ⟨sets1, ?_, by omega, ?_, ?_⟩
    · rw [range_map_succ, forEach_append, hrun]
      simp [forEach, hl, hrun1]
    · intro i hi
      by_cases hin : i = n
      · subst hin
        refine ⟨_, l, hfrm, hl, nodup_foldl_setInsert l [] List.nodup_nil, ?_⟩
        intro x
        rw [mem_foldl_setInsert]
        simp
      · obtain ⟨s, l1, hs, hl1, hnd, hmem⟩ := hdone i (by omega)
        refine ⟨s, l1, ?_, hl1, hnd, hmem⟩
        rw [hother (i : Int) (by omega)]
        exact hs
    · intro i hi1 hi2
      rw [hother (i : Int) (by omega)]
      exact hrest i (by omega) hi2

theorem indices_eq (n : Int) : indices n = (List.range n.toNat).map Int.ofNat := rfl

theorem consistent_nat {g : IGraph} (hc : Consistent g) :
    ∀ i : Nat, i < g.VerticesCount.toNat → ∃ l, g.GetNextVertices i = some l := by
  intro i hi
  exact hc.2 i (by omega) (by omega)

theorem listGraph_ofGraph_spec (g : IGraph) (hc : Consistent g) :
    ∃ b, ListGraph.ofGraph g = some b ∧ SameSuccessors g (.list b) := by
  obtain ⟨rows, hrun, hlen, hget⟩ :=
    copyRows_spec g.GetNextVertices g.VerticesCount.toNat g.VerticesCount.toNat (le_refl _)
      (consistent_nat hc)
  have h0 := hc.1
  refine ⟨⟨rows⟩, ?_, ?_, ?_⟩
  · simp [ListGraph.ofGraph, h0, indices_eq, hrun]
  · change ((rows.length : Nat) : Int) = g.VerticesCount
    omega
  · intro v hv0 hv1
    obtain ⟨l, hl⟩ := hc.2 v hv0 hv1
    have hv : ((v.toNat : Nat) : Int) = v := by omega
    have hrow := hget v.toNat (by omega)
    rw [hv, hl] at hrow
    refine ⟨l, l, hl, ?_, fun _ => Iff.rfl⟩
    have hin : 0 ≤ v ∧ v < (rows.length : Int) := ⟨hv0, by omega⟩
    simp only [IGraph.GetNextVertices, ListGraph.GetNextVertices, hin, and_self, if_true]
    rw [vecGet_some_iff]
    exact ⟨hv0, hrow⟩

theorem matrixGraph_ofGraph_spec (g : IGraph) (hc : Consistent g) :
    ∃ b, MatrixGraph.ofGraph g = some b ∧ SameSuccessors g (.matrix b) := by
  obtain ⟨rows, hrun, hlen, hget⟩ :=
    copyRows_spec g.GetNextVertices g.VerticesCount.toNat g.VerticesCount.toNat (le_refl _)
      (consistent_nat hc)
  have h0 := hc.1
  refine ⟨⟨rows⟩, ?_, ?_, ?_⟩
  · simp [MatrixGraph.ofGraph, h0, indices_eq, hrun]
  · change ((rows.length : Nat) : Int) = g.VerticesCount
    omega
  · intro v hv0 hv1
    obtain ⟨l, hl⟩ := hc.2 v hv0 hv1
    have hv : ((v.toNat : Nat) : Int) = v := by omega
    have hrow := hget v.toNat (by omega)
    rw [hv, hl] at hrow
    refine ⟨l, l, hl, ?_, fun _ => Iff.rfl⟩
    have hin : 0 ≤ v ∧ v < (rows.length : Int) := ⟨hv0, by omega⟩
    simp only [IGraph.GetNextVertices, MatrixGraph.GetNextVertices, hin, and_self, if_true]
    rw [vecGet_some_iff]
    exact ⟨hv0, hrow⟩

theorem arcGraph_ofGraph_spec (g : IGraph) (hc : Consistent g) :
    ∃ b, ArcGraph.ofGraph g = some b ∧ SameSuccessors g (.arc b) ∧
      ∀ v, 0 ≤ v → v < g.VerticesCount → b.GetNextVertices v = g.GetNextVertices v := by
  obtain ⟨arcs, hrun, hfil⟩ :=
    arcsLoop_spec g.GetNextVertices g.VerticesCount.toNat (consistent_nat hc)
  have h0 := hc.1
  have hnext : ∀ v, 0 ≤ v → v < g.VerticesCount →
      (ArcGraph.mk arcs g.VerticesCount).GetNextVertices v = g.GetNextVertices v := by
    intro v hv0 hv1
    have hin : 0 ≤ v ∧ v < g.VerticesCount := ⟨hv0, hv1⟩
    have hin1 : 0 ≤ v ∧ v < ((g.VerticesCount.toNat : Nat) : Int) := ⟨hv0, by omega⟩
    simp only [ArcGraph.GetNextVertices, ArcGraph.VerticesCount, hin, and_self, if_true]
    rw [hfil v, if_pos hin1]
  refine ⟨⟨arcs, g.VerticesCount⟩, ?_, ⟨rfl, ?_⟩, hnext⟩
  · simp [ArcGraph.ofGraph, indices_eq, hrun]
  · intro v hv0 hv1
    obtain ⟨l, hl⟩ := hc.2 v hv0 hv1
    refine ⟨l, l, hl, ?_, fun _ => Iff.rfl⟩
    simp only [IGraph.GetNextVertices]
    rw [hnext v hv0 hv1, hl]

theorem setGraph_ofGraph_spec (g : IGraph) (hc : Consistent g) :
    ∃ b, SetGraph.ofGraph g = some b ∧ SameSuccessors g (.set b) ∧
      ∀ v l, b.GetNextVertices v = some l → l.Nodup := by
  obtain ⟨sets, hrun, hlen, hdone, hrest⟩ :=
    setsLoop_spec g.GetNextVertices g.VerticesCount.toNat g.VerticesCount.toNat (le_refl _)
      (consistent_nat hc)
  have h0 := hc.1
  refine ⟨⟨sets, g.VerticesCount⟩, ?_, ⟨rfl, ?_⟩, ?_⟩
  · simp [SetGraph.ofGraph, h0, indices_eq, hrun]
  · intro v hv0 hv1
    have hv : ((v.toNat : Nat) : Int) = v := by omega
    obtain ⟨s, l, hs, hl, _, hmem⟩ := hdone v.toNat (by omega)
    rw [hv] at hs hl
    have hin : 0 ≤ v ∧ v < (sets.length : Int) := ⟨hv0, by omega⟩
    refine ⟨l, s, hl, ?_, hmem⟩
    simp only [IGraph.GetNextVertices, SetGraph.GetNextVertices, hin, and_self, if_true]
    exact hs
  · intro v l hl
    simp only [SetGraph.GetNextVertices] at hl
    split at hl
    · rename_i hin
      have hv : ((v.toNat : Nat) : Int) = v := by omega
      obtain ⟨s, _, hs, _, hnd, _⟩ := hdone v.toNat (by omega)
      rw [hv, hl] at hs
      cases hs
      exact hnd
    · cases hl

theorem convert_spec (k : Kind) (g : IGraph) (hc : Consistent g) :
    ∃ b, convert k g = some b ∧ b.kind = k ∧ SameSuccessors g b := by
  cases k with
  | list =>
    obtain ⟨b, hb, hs⟩ := listGraph_ofGraph_spec g hc
    exact ⟨.list b, by simp [convert, hb], rfl, hs⟩
  | matrix =>
    obtain ⟨b, hb, hs⟩ := matrixGraph_ofGraph_spec g hc
    exact ⟨.matrix b, by simp [convert, hb], rfl, hs⟩
  | arc =>
    obtain ⟨b, hb, hs, _⟩ := arcGraph_ofGraph_spec g hc
    exact ⟨.arc b, by simp [convert, hb], rfl, hs⟩
  | set =>
    obtain ⟨b, hb, hs, _⟩ := setGraph_ofGraph_spec g hc
    exact ⟨.set b, by simp [convert, hb], rfl, hs⟩

theorem sameSuccessors_consistent {g b : IGraph} (hc : Consistent g) (hs : SameSuccessors g b) :
    Consistent b := by
  refine ⟨by rw [hs.1]; exact hc.1, ?_⟩
  intro v h0 h1
  rw [hs.1] at h1
  obtain ⟨_, l2, _, h2, _⟩ := hs.2 v h0 h1
  exact ⟨l2, h2⟩

theorem sameSuccessors_trans {g b a : IGraph} (h1 : SameSuccessors g b)
    (h2 : SameSuccessors b a) : SameSuccessors g a := by
  refine ⟨by rw [h2.1, h1.1], ?_⟩
  intro v hv0 hv1
  obtain ⟨l1, l2, hg, hb, hm1⟩ := h1.2 v hv0 hv1
  obtain ⟨l2a, l3, hb1, ha, hm2⟩ := h2.2 v hv0 (by rw [h1.1]; exact hv1)
  rw [hb] at hb1
  cases hb1
  exact ⟨l1, l3, hg, ha, fun x => (hm2 x).trans (hm1 x)⟩

/-- The round trip through any class, for a graph whose vertex count is
consistent with its storage. -/
theorem roundTrip_of_consistent (ka kb : Kind) (g : IGraph) (hc : Consistent g) :
    ∃ b a, convert kb g = some b ∧ convert ka b = some a ∧ a.kind = ka ∧
      SameSuccessors g a := by
  obtain ⟨b, hb, _, hsb⟩ := convert_spec kb g hc
  obtain ⟨a, ha, hka, hsa⟩ := convert_spec ka b (sameSuccessors_consistent hc hsb)
  exact ⟨b, a, hb, ha, hka, sameSuccessors_trans hsb hsa⟩

theorem consistent_list (g : ListGraph) : Consistent (.list g) := by
  refine ⟨Int.ofNat_nonneg _, ?_⟩
  intro v h0 h1
  have h2 : v < (g.adjacencyLists.length : Int) := h1
  obtain ⟨l, hl⟩ := vecGet_of_range g.adjacencyLists v h0 h2
  exact ⟨l, by simp [IGraph.GetNextVertices, ListGraph.GetNextVertices, h0, h2, hl]⟩

theorem consistent_matrix (g : MatrixGraph) : Consistent (.matrix g) := by
  refine ⟨Int.ofNat_nonneg _, ?_⟩
  intro v h0 h1
  have h2 : v < (g.adjMatrix.length : Int) := h1
  obtain ⟨l, hl⟩ := vecGet_of_range g.adjMatrix v h0 h2
  exact ⟨l, by simp [IGraph.GetNextVertices, MatrixGraph.GetNextVertices, h0, h2, hl]⟩

theorem consistent_arc (g : ArcGraph) (h : 0 ≤ g.verticesCount) : Consistent (.arc g) := by
  refine ⟨h, ?_⟩
  intro v h0 h1
  have h2 : v < g.VerticesCount := h1
  exact ⟨(g.arrVert.filter fun edge => edge.1 == v).map fun edge => edge.2, by
    simp [IGraph.GetNextVertices, ArcGraph.GetNextVertices, h0, h2]⟩

theorem consistent_set (g : SetGraph) (h0 : 0 ≤ g.vertexCount)
    (h1 : g.vertexCount ≤ (g.adjSet.length : Int)) : Consistent (.set g) := by
  refine ⟨h0, ?_⟩
  intro v hv0 hv1
  have hv2 : v < g.vertexCount := hv1
  have h2 : v < (g.adjSet.length : Int) := by omega
  obtain ⟨l, hl⟩ := vecGet_of_range g.adjSet v hv0 h2
  exact ⟨l, by simp [IGraph.GetNextVertices, SetGraph.GetNextVertices, hv0, h2, hl]⟩

/-- The successors along the chain `List -> Matrix -> Arc -> Set` of `main`. -/
theorem chain_successors (g : ListGraph) :
    ∃ m a s, MatrixGraph.ofGraph (.list g) = some m ∧ ArcGraph.ofGraph (.matrix m) = some a ∧
      SetGraph.ofGraph (.arc a) = some s ∧ SameSuccessors (.list g) (.matrix m) ∧
      SameSuccessors (.list g) (.arc a) ∧ SameSuccessors (.list g) (.set s) := by
  obtain ⟨m, hm, hsm⟩ := matrixGraph_ofGraph_spec (.list g) (consistent_list g)
  obtain ⟨a, ha, hsa, _⟩ := arcGraph_ofGraph_spec (.matrix m) (consistent_matrix m)
  have hga := sameSuccessors_trans hsm hsa
  obtain ⟨s, hs, hss, _⟩ :=
    setGraph_ofGraph_spec (.arc a) (sameSuccessors_consistent (consistent_list g) hga)
  exact ⟨m, a, s, hm, ha, hs, hsm, hga, sameSuccessors_trans hga hss⟩

/-! ## Construction with a size, and edge insertion -/

theorem addEdge_verticesCount (g g1 : IGraph) (frm dst : Int) (h : g.AddEdge frm dst = some g1) :
    g1.VerticesCount = g.VerticesCount ∧ g1.kind = g.kind := by
  cases g with
  | list g =>
    simp only [IGraph.AddEdge, ListGraph.AddEdge, Option.map_eq_some'] at h
    obtain ⟨g2, h2, rfl⟩ := h
    refine ⟨?_, rfl⟩
    split at h2
    · split at h2
      · simp only [Option.bind_eq_some, Option.map_eq_some'] at h2
        obtain ⟨row, _, rows, hrows, rfl⟩ := h2
        have := vecSet_length hrows
        simp [IGraph.VerticesCount, ListGraph.VerticesCount, this]
      · cases h2
    · cases h2
  | matrix g =>
    simp only [IGraph.AddEdge, MatrixGraph.AddEdge, Option.map_eq_some'] at h
    obtain ⟨g2, h2, rfl⟩ := h
    refine ⟨?_, rfl⟩
    split at h2
    · split at h2
      · simp only [Option.bind_eq_some, Option.map_eq_some'] at h2
        obtain ⟨row, _, row1, _, rows, hrows, rfl⟩ := h2
        have := vecSet_length hrows
        simp [IGraph.VerticesCount, MatrixGraph.VerticesCount, this]
      · cases h2
    · cases h2
  | arc g =>
    simp only [IGraph.AddEdge, ArcGraph.AddEdge, Option.map_eq_some'] at h
    obtain ⟨g2, h2, rfl⟩ := h
    refine ⟨?_, rfl⟩
    split at h2
    · split at h2
      · cases h2
        rfl
      · cases h2
    · cases h2
  | set g =>
    simp only [IGraph.AddEdge, SetGraph.AddEdge, Option.map_eq_some'] at h
    obtain ⟨g2, h2, rfl⟩ := h
    refine ⟨?_, rfl⟩
    split at h2
    · split at h2
      · simp only [Option.bind_eq_some, Option.map_eq_some'] at h2
        obtain ⟨s, _, sets, _, rfl⟩ := h2
        rfl
      · cases h2
    · cases h2

theorem addEdges_verticesCount (es : List (Int × Int)) :
    ∀ g g1 : IGraph, addEdges g es = some g1 →
      g1.VerticesCount = g.VerticesCount ∧ g1.kind = g.kind := by
  induction es with
  | nil =>
    intro g g1 h
    simp only [addEdges, Option.some.injEq] at h
    subst h
    exact ⟨rfl, rfl⟩
  | cons e rest ih =>
    intro g g1 h
    simp only [addEdges, Option.bind_eq_some] at h
    obtain ⟨g2, h2, h3⟩ := h
    have a := addEdge_verticesCount g g2 e.1 e.2 h2
    have b := ih g2 g1 h3
    exact ⟨b.1.trans a.1, b.2.trans a.2⟩

theorem listGraph_ofSize_spec (n : Int) (h : 0 ≤ n) :
    ∃ g, ListGraph.ofSize n = some g ∧ g.VerticesCount = n ∧
      ∀ v, 0 ≤ v → v < n → g.GetNextVertices v = some [] ∧ g.GetPrevVertices v = some [] := by
  refine ⟨⟨List.replicate n.toNat []⟩, by simp [ListGraph.ofSize, h], ?_, ?_⟩
  · simp only [ListGraph.VerticesCount, List.length_replicate]; omega
  · intro v h0 h1
    have hlt : v.toNat < n.toNat := by omega
    have hin : 0 ≤ v ∧ v < ((n.toNat : Nat) : Int) := ⟨h0, by omega⟩
    constructor
    · simp [ListGraph.GetNextVertices, hin, vecGet, h0, h1, List.getElem?_replicate, hlt]
    · simp only [ListGraph.GetPrevVertices, List.length_replicate, hin, and_self, if_true,
        Option.some.injEq]
      apply List.eq_nil_iff_forall_not_mem.2
      intro x hx
      rw [mem_prevScan] at hx
      obtain ⟨_, row, hrow, hvr⟩ := hx
      rw [List.get?_eq_getElem?, List.getElem?_replicate] at hrow
      split at hrow
      · cases hrow
        simp at hvr
      · cases hrow

theorem listGraph_addEdge_succeeds (g : ListGraph) (frm dst : Int) (h0 : 0 ≤ frm)
    (h1 : frm < g.VerticesCount) (h2 : 0 ≤ dst) (h3 : dst < g.VerticesCount) :
    ∃ g1, g.AddEdge frm dst = some g1 := by
  have h1a : frm < (g.adjacencyLists.length : Int) := h1
  have h3a : dst < (g.adjacencyLists.length : Int) := h3
  obtain ⟨row, hrow⟩ := vecGet_of_range g.adjacencyLists frm h0 h1a
  have hset := vecSet_of_range g.adjacencyLists frm (row ++ [dst]) h0 h1a
  exact ⟨⟨g.adjacencyLists.set frm.toNat (row ++ [dst])⟩, by
    simp [ListGraph.AddEdge, h0, h1a, h2, h3a, hrow, hset]⟩

theorem arcGraph_ofSize_spec (n : Int) (h : 0 ≤ n) :
    ∃ g, ArcGraph.ofSize n = some g ∧ g.VerticesCount = n ∧ (g.arrVert.length : Int) = n :=
  ⟨⟨List.replicate n.toNat (0, 0), n⟩, by simp [ArcGraph.ofSize, h], rfl, by
    simp only [List.length_replicate]; omega⟩

theorem arcGraph_addEdge_succeeds (g : ArcGraph) (frm dst : Int) (h0 : 0 ≤ frm)
    (h1 : frm < (g.arrVert.length : Int)) (h2 : 0 ≤ dst) (h3 : dst < (g.arrVert.length : Int)) :
    ∃ g1, g.AddEdge frm dst = some g1 ∧ g1.VerticesCount = g.VerticesCount ∧
      g1.arrVert.length = g.arrVert.length + 1 :=
  ⟨⟨g.arrVert ++ [(frm, dst)], g.verticesCount⟩, by simp [ArcGraph.AddEdge, h0, h1, h2, h3],
    rfl, by simp⟩

theorem matrixGraph_ofSize_spec (n : Int) (h : 0 ≤ n) :
    ∃ g, MatrixGraph.ofSize n = some g ∧ g.VerticesCount = n ∧
      (∀ v, 0 ≤ v → v < n → g.GetNextVertices v = some []) ∧
      ∀ frm dst, g.AddEdge frm dst = none := by
  refine ⟨⟨List.replicate n.toNat []⟩, by simp [MatrixGraph.ofSize, h], ?_, ?_, ?_⟩
  · simp only [MatrixGraph.VerticesCount, List.length_replicate]; omega
  · intro v h0 h1
    have hlt : v.toNat < n.toNat := by omega
    have hin : 0 ≤ v ∧ v < ((n.toNat : Nat) : Int) := ⟨h0, by omega⟩
    simp [MatrixGraph.GetNextVertices, hin, vecGet, h0, h1, List.getElem?_replicate, hlt]
  · intro frm dst
    simp only [MatrixGraph.AddEdge, List.length_replicate]
    split
    · split
      · rename_i hf hd
        have hlt : frm.toNat < n.toNat := by omega
        have hrow : vecGet (List.replicate n.toNat ([] : List Int)) frm = some [] := by
          simp [vecGet, hf.1, List.getElem?_replicate, hlt]
        rw [hrow]
        simp [vecSet]
      · rfl
    · rfl

/-! ## The fuel does not influence a result -/

theorem forEach_mono {σ : Type} (f f1 : Int → σ → Option σ)
    (h : ∀ x st r, f x st = some r → f1 x st = some r) :
    ∀ (xs : List Int) (st r : σ), forEach f xs st = some r → forEach f1 xs st = some r := by
  intro xs
  induction xs with
  | nil => intro st r hr; simpa [forEach] using hr
  | cons x rest ih =>
    intro st r hr
    simp only [forEach, Option.bind_eq_some] at hr ⊢
    obtain ⟨st1, h1, h2⟩ := hr
    exact ⟨st1, h x st st1 h1, ih st1 r h2⟩

theorem visitIfNew_mono (f f1 : Int → Walk → Option Walk)
    (h : ∀ x st r, f x st = some r → f1 x st = some r) :
    ∀ x st r, visitIfNew f x st = some r → visitIfNew f1 x st = some r := by
  intro x st r hr
  simp only [visitIfNew, Option.bind_eq_some] at hr ⊢
  obtain ⟨b, hb, hrun⟩ := hr
  refine ⟨b, hb, ?_⟩
  split at hrun
  · rename_i hbf
    rw [if_pos hbf]
    exact h x st r hrun
  · rename_i hbf
    rw [if_neg hbf]
    exact hrun

theorem DFS_fuel_succ (g : IGraph) :
    ∀ fuel v st r, DFS g fuel v st = some r → DFS g (fuel + 1) v st = some r := by
  intro fuel
  induction fuel with
  | zero => intro v st r h; simp [DFS] at h
  | succ fuel ih =>
    intro v st r h
    rw [DFS] at h ⊢
    simp only [Option.bind_eq_some] at h ⊢
    obtain ⟨visited, hset, next, hnext, hrun⟩ := h
    exact ⟨visited, hset, next, hnext,
      forEach_mono _ _ (visitIfNew_mono _ _ ih) next _ r hrun⟩

theorem DFS_fuel_le (g : IGraph) {fuel fuel1 : Nat} (hle : fuel ≤ fuel1) :
    ∀ v st r, DFS g fuel v st = some r → DFS g fuel1 v st = some r := by
  induction hle with
  | refl => intro v st r h; exact h
  | step _ ih => intro v st r h; exact DFS_fuel_succ g _ v st r (ih v st r h)

theorem topologicalSortInternal_fuel_succ (g : IGraph) :
    ∀ fuel v st r, topologicalSortInternal g fuel v st = some r →
      topologicalSortInternal g (fuel + 1) v st = some r := by
  intro fuel
  induction fuel with
  | zero => intro v st r h; simp [topologicalSortInternal] at h
  | succ fuel ih =>
    intro v st r h
    rw [topologicalSortInternal] at h ⊢
    simp only [Option.bind_eq_some, Option.map_eq_some'] at h ⊢
    obtain ⟨visited, hset, next, hnext, fin, hrun, hfin⟩ := h
    exact ⟨visited, hset, next, hnext, fin,
      forEach_mono _ _ (visitIfNew_mono _ _ ih) next _ fin hrun, hfin⟩

theorem topologicalSortInternal_fuel_le (g : IGraph) {fuel fuel1 : Nat} (hle : fuel ≤ fuel1) :
    ∀ v st r, topologicalSortInternal g fuel v st = some r →
      topologicalSortInternal g fuel1 v st = some r := by
  induction hle with
  | refl => intro v st r h; exact h
  | step _ ih =>
    intro v st r h
    exact topologicalSortInternal_fuel_succ g _ v st r (ih v st r h)

theorem bfsLoop_fuel_succ (g : IGraph) :
    ∀ fuel st fin, bfsLoop g fuel st = some fin → fin.qu = [] →
      bfsLoop g (fuel + 1) st = some fin := by
  intro fuel
  induction fuel with
  | zero =>
    intro st fin h hq
    simp only [bfsLoop, Option.some.injEq] at h
    subst h
    simp [bfsLoop, hq]
  | succ fuel ih =>
    intro st fin h hq
    rw [bfsLoop] at h ⊢
    cases hqu : st.qu with
    | nil =>
      rw [hqu] at h
      simpa using h
    | cons cur rest =>
      rw [hqu] at h
      simp only [Option.bind_eq_some] at h ⊢
      obtain ⟨st1, hstep, hrun⟩ := h
      exact ⟨st1, hstep, ih st1 fin hrun hq⟩

theorem BFS_fuel_succ (g : IGraph) :
    ∀ fuel v st r, BFS g fuel v st = some r → BFS g (fuel + 1) v st = some r := by
  intro fuel v st r h
  simp only [BFS, Option.bind_eq_some] at h ⊢
  obtain ⟨visited, hset, fin, hrun, hfin⟩ := h
  by_cases hq : fin.qu = []
  · exact ⟨visited, hset, fin, bfsLoop_fuel_succ g fuel _ fin hrun hq, hfin⟩
  · simp [hq] at hfin

theorem BFS_fuel_le (g : IGraph) {fuel fuel1 : Nat} (hle : fuel ≤ fuel1) :
    ∀ v st r, BFS g fuel v st = some r → BFS g fuel1 v st = some r := by
  induction hle with
  | refl => intro v st r h; exact h
  | step _ ih => intro v st r h; exact BFS_fuel_succ g _ v st r (ih v st r h)

theorem mainBFS_fuel_le (g : IGraph) {fuel fuel1 : Nat} (hle : fuel ≤ fuel1) (out : List Int)
    (h : mainBFS g fuel = some out) : mainBFS g fuel1 = some out := by
  unfold mainBFS at h ⊢
  split at h
  · rename_i hN
    rw [if_pos hN]
    simp only [Option.map_eq_some'] at h ⊢
    obtain ⟨fin, hrun, hfin⟩ := h
    exact ⟨fin, forEach_mono _ _ (visitIfNew_mono _ _ (BFS_fuel_le g hle)) _ _ fin hrun, hfin⟩
  · cases h

theorem mainDFS_fuel_le (g : IGraph) {fuel fuel1 : Nat} (hle : fuel ≤ fuel1) (out : List Int)
    (h : mainDFS g fuel = some out) : mainDFS g fuel1 = some out := by
  unfold mainDFS at h ⊢
  split at h
  · rename_i hN
    rw [if_pos hN]
    simp only [Option.map_eq_some'] at h ⊢
    obtain ⟨fin, hrun, hfin⟩ := h
    exact ⟨fin, forEach_mono _ _ (visitIfNew_mono _ _ (DFS_fuel_le g hle)) _ _ fin hrun, hfin⟩
  · cases h

theorem topologicalSort_fuel_le (g : IGraph) {fuel fuel1 : Nat} (hle : fuel ≤ fuel1)
    (out : List Int) (h : topologicalSort g fuel = some out) :
    topologicalSort g fuel1 = some out := by
  unfold topologicalSort at h ⊢
  split at h
  · rename_i hN
    rw [if_pos hN]
    simp only [Option.map_eq_some'] at h ⊢
    obtain ⟨fin, hrun, hfin⟩ := h
    exact ⟨fin,
      forEach_mono _ _ (visitIfNew_mono _ _ (topologicalSortInternal_fuel_le g hle)) _ _ fin hrun,
      hfin⟩
  · cases h

/-! ## The traversals on every graph with valid successors -/

/-- C1. On an acyclic graph whose successors are valid vertex indices,
`topologicalSort` returns (the same sequence for every recursion bound of at
least `N`), the sequence has no repetition, and for every edge `(u, w)` both
ends occur in it, `u` at a strictly smaller position than `w`. -/
theorem topologicalSort_edge_order (g : IGraph) (hN : 0 ≤ g.VerticesCount)
    (hv : ValidSuccessors g) (hac : Acyclic g) :
    ∃ sorted, (∀ fuel, g.VerticesCount.toNat ≤ fuel → topologicalSort g fuel = some sorted) ∧
      sorted.Nodup ∧
      ∀ u w, Edge g u w → u ∈ sorted ∧ w ∈ sorted ∧ sorted.indexOf u < sorted.indexOf w := by
  obtain ⟨sorted, hrun, hperm, hord⟩ :=
    topologicalSort_spec g g.VerticesCount.toNat hN hv (le_refl _)
  have hnd : sorted.Nodup := hperm.nodup_iff.2 (nodup_indices _)
  exact ⟨sorted, fun fuel hf => topologicalSort_fuel_le g hf sorted hrun, hnd,
    fun u w huw => indexOf_lt_of_before hnd (hord hac u w huw)⟩

/-- C2. On a graph with `N` vertices whose successors are valid, `mainBFS`
returns (the same sequence for every iteration bound of at least `N`), and the
sequence of vertices handed to the callback is a permutation of `0, ..., N-1`:
every vertex occurs in it exactly once. -/
theorem mainBFS_perm (g : IGraph) (hN : 0 ≤ g.VerticesCount) (hv : ValidSuccessors g) :
    ∃ out, (∀ fuel, g.VerticesCount.toNat ≤ fuel → mainBFS g fuel = some out) ∧
      out.Perm (indices g.VerticesCount) ∧
      ∀ x, 0 ≤ x → x < g.VerticesCount → out.count x = 1 := by
  obtain ⟨out, hrun, hperm⟩ := mainBFS_spec g g.VerticesCount.toNat hN hv (le_refl _)
  refine ⟨out, fun fuel hf => mainBFS_fuel_le g hf out hrun, hperm, ?_⟩
  intro x h0 h1
  rw [hperm.count_eq]
  exact List.count_eq_one_of_mem (nodup_indices _) ((mem_indices _ x).2 ⟨h0, h1⟩)

/-- C3. On a graph with `N` vertices whose successors are valid, `mainDFS`
returns (the same sequence for every recursion bound of at least `N`), the
sequence of vertices handed to the callback contains every vertex of
`0, ..., N-1` exactly once, and it is a permutation of the sequence that
`mainBFS` produces on the same graph. -/
theorem mainDFS_perm_mainBFS (g : IGraph) (hN : 0 ≤ g.VerticesCount) (hv : ValidSuccessors g) :
    ∃ dfs bfs,
      (∀ fuel, g.VerticesCount.toNat ≤ fuel →
        mainDFS g fuel = some dfs ∧ mainBFS g fuel = some bfs) ∧
      dfs.Perm (indices g.VerticesCount) ∧
      (∀ x, 0 ≤ x → x < g.VerticesCount → dfs.count x = 1) ∧ dfs.Perm bfs := by
  obtain ⟨dfs, hd, hpd⟩ := mainDFS_spec g g.VerticesCount.toNat hN hv (le_refl _)
  obtain ⟨bfs, hb, hpb⟩ := mainBFS_spec g g.VerticesCount.toNat hN hv (le_refl _)
  refine ⟨dfs, bfs,
    fun fuel hf => ⟨mainDFS_fuel_le g hf dfs hd, mainBFS_fuel_le g hf bfs hb⟩, hpd, ?_,
    hpd.trans hpb.symm⟩
  intro x h0 h1
  rw [hpd.count_eq]
  exact List.count_eq_one_of_mem (nodup_indices _) ((mem_indices _ x).2 ⟨h0, h1⟩)

/-- C4. Single-source `BFS` from a valid source `s`, started with all markers
unset, returns (the same result for every iteration bound of at least `N`); the
callback is invoked on no vertex twice, and on exactly the vertices reachable
from `s` by a path of zero or more edges.  No vertex is enqueued twice: after
any number of iterations of the loop, the vertices called back followed by the
queued ones form a sequence without repetition. -/
theorem BFS_reachable_exactly_once (g : IGraph) (s : Int) (hv : ValidSuccessors g)
    (h0 : 0 ≤ s) (h1 : s < g.VerticesCount) :
    ∃ visited out,
      (∀ fuel, g.VerticesCount.toNat ≤ fuel →
        BFS g fuel s (List.replicate g.VerticesCount.toNat false, []) = some (visited, out)) ∧
      out.Nodup ∧ (∀ x, x ∈ out ↔ Reach g s x) ∧
      ∀ (k : Nat) (st : BFSState),
        bfsLoop g k ⟨(List.replicate g.VerticesCount.toNat false).set s.toNat true, [s], []⟩
          = some st → (st.out ++ st.qu).Nodup := by
  have hR : ∀ x w, Reach g s x → Edge g x w → Reach g s w :=
    fun x w hx hw => Relation.ReflTransGen.tail hx hw
  have hinit := BFSGood_initial g (Reach g s) (by omega)
  have hnew := not_marked_replicate g.VerticesCount.toNat s
  obtain ⟨visited, more, hrun, hgood, hms, _⟩ :=
    BFS_spec hv hR g.VerticesCount.toNat s _ [] hinit h0 h1 hnew Relation.ReflTransGen.refl
      (count_false_le_fuel hinit.len (le_refl _))
  simp only [List.nil_append] at hrun hgood
  have hmk := hgood.marked
  simp only [List.append_nil] at hmk
  refine ⟨visited, more, fun fuel hf => BFS_fuel_le g hf s _ _ hrun,
    by simpa using hgood.nodup, ?_, ?_⟩
  · intro x
    constructor
    · intro hx
      exact hgood.inR x (by simpa using hx)
    · intro hx
      induction hx with
      | refl => exact (hmk s).1 hms
      | tail _ hyz ih => exact (hmk _).1 (hgood.closed _ ih _ hyz)
  · intro k st hk
    have hstart := BFS_start_good s _ [] hinit h0 h1 hnew Relation.ReflTransGen.refl
    obtain ⟨fin, hfin, hgoodf, _⟩ := bfsLoop_spec hv hR k _ hstart
    rw [hfin] at hk
    cases hk
    exact hgoodf.nodup

/-- C5. Single-source `DFS` from a valid source `s`, started with all markers
unset, returns (the same result for every recursion bound of at least `N`); the
callback is invoked on no vertex twice and on exactly the vertices reachable
from `s`; `s` comes first, and every other vertex comes after some vertex that
has it as a direct successor. -/
theorem DFS_preorder_reachable (g : IGraph) (s : Int) (hv : ValidSuccessors g)
    (h0 : 0 ≤ s) (h1 : s < g.VerticesCount) :
    ∃ visited rest,
      (∀ fuel, g.VerticesCount.toNat ≤ fuel →
        DFS g fuel s (List.replicate g.VerticesCount.toNat false, [])
          = some (visited, s :: rest)) ∧
      (s :: rest).Nodup ∧ (∀ x, x ∈ s :: rest ↔ Reach g s x) ∧
      ∀ x ∈ rest, ∃ p, Edge g p x ∧ Before p x (s :: rest) := by
  have hlen : ((List.replicate g.VerticesCount.toNat false).length : Int) = g.VerticesCount := by
    simp only [List.length_replicate]; omega
  have hnew := not_marked_replicate g.VerticesCount.toNat s
  obtain ⟨visited, rest, hrun, hblk, hcl⟩ :=
    DFS_spec hv g.VerticesCount.toNat s _ [] hlen h0 h1 hnew
      (count_false_le_fuel hlen (le_refl _))
  have hset := vecSet_of_range (List.replicate g.VerticesCount.toNat false) s true h0 (by omega)
  have hm1 := marked_vecSet hset
  have hmk : ∀ x, Marked visited x ↔ x ∈ s :: rest := by
    intro x
    rw [hblk.marked, hm1, List.mem_cons]
    have := not_marked_replicate g.VerticesCount.toNat x
    tauto
  have hrun1 : DFS g g.VerticesCount.toNat s (List.replicate g.VerticesCount.toNat false, [])
      = some (visited, s :: rest) := by simpa using hrun
  refine ⟨visited, rest, fun fuel hf => DFS_fuel_le g hf s _ _ hrun1, ?_, ?_, ?_⟩
  · refine List.nodup_cons.2 ⟨?_, hblk.nodup⟩
    intro hin
    exact hblk.fresh s hin ((hm1 s).2 (Or.inl rfl))
  · intro x
    constructor
    · intro hx
      rcases List.mem_cons.1 hx with rfl | hx
      · exact Relation.ReflTransGen.refl
      · exact hblk.reach x hx
    · intro hx
      induction hx with
      | refl => exact List.mem_cons_self _ _
      | tail _ hyz ih =>
        apply (hmk _).1
        rcases List.mem_cons.1 ih with rfl | hy
        · exact hcl _ hyz
        · exact hblk.closed _ hy _ hyz
  · intro x hx
    obtain ⟨p, hp, hor⟩ := hblk.parent x hx
    refine ⟨p, hp, ?_⟩
    rcases hor with hps | hbef
    · rw [hps]; exact before_cons_head hx
    · exact before_append_left [s] hbef

/-! ## The traversals on the demonstration graph -/

theorem topologicalSort_edge_order_witness :
    ValidSuccessors (.list demoListGraph) ∧ Acyclic (.list demoListGraph) ∧
    ∃ sorted,
      (∀ fuel, (IGraph.list demoListGraph).VerticesCount.toNat ≤ fuel →
        topologicalSort (.list demoListGraph) fuel = some sorted) ∧
      sorted.Nodup ∧
      ∀ u w, Edge (.list demoListGraph) u w →
        u ∈ sorted ∧ w ∈ sorted ∧ sorted.indexOf u < sorted.indexOf w :=
  ⟨demo_valid, demo_acyclic,
    topologicalSort_edge_order (.list demoListGraph) (by decide) demo_valid demo_acyclic⟩

theorem mainBFS_perm_witness :
    ValidSuccessors (.list demoListGraph) ∧
    ∃ out,
      (∀ fuel, (IGraph.list demoListGraph).VerticesCount.toNat ≤ fuel →
        mainBFS (.list demoListGraph) fuel = some out) ∧
      out.Perm (indices (IGraph.list demoListGraph).VerticesCount) ∧
      ∀ x, 0 ≤ x → x < (IGraph.list demoListGraph).VerticesCount → out.count x = 1 :=
  ⟨demo_valid, mainBFS_perm (.list demoListGraph) (by decide) demo_valid⟩

theorem mainDFS_perm_mainBFS_witness :
    ValidSuccessors (.list demoListGraph) ∧
    ∃ dfs bfs,
      (∀ fuel, (IGraph.list demoListGraph).VerticesCount.toNat ≤ fuel →
        mainDFS (.list demoListGraph) fuel = some dfs ∧
        mainBFS (.list demoListGraph) fuel = some bfs) ∧
      dfs.Perm (indices (IGraph.list demoListGraph).VerticesCount) ∧
      (∀ x, 0 ≤ x → x < (IGraph.list demoListGraph).VerticesCount → dfs.count x = 1) ∧
      dfs.Perm bfs :=
  ⟨demo_valid, mainDFS_perm_mainBFS (.list demoListGraph) (by decide) demo_valid⟩

theorem BFS_reachable_exactly_once_witness :
    ValidSuccessors (.list demoListGraph) ∧
    ∃ visited out,
      (∀ fuel, (IGraph.list demoListGraph).VerticesCount.toNat ≤ fuel →
        BFS (.list demoListGraph) fuel 3
          (List.replicate (IGraph.list demoListGraph).VerticesCount.toNat false, [])
          = some (visited, out)) ∧
      out.Nodup ∧ (∀ x, x ∈ out ↔ Reach (.list demoListGraph) 3 x) ∧
      ∀ (k : Nat) (st : BFSState),
        bfsLoop (.list demoListGraph) k
          ⟨(List.replicate (IGraph.list demoListGraph).VerticesCount.toNat false).set
            (3 : Int).toNat true, [3], []⟩ = some st → (st.out ++ st.qu).Nodup :=
  ⟨demo_valid,
    BFS_reachable_exactly_once (.list demoListGraph) 3 demo_valid (by decide) (by decide)⟩

theorem DFS_preorder_reachable_witness :
    ValidSuccessors (.list demoListGraph) ∧
    ∃ visited rest,
      (∀ fuel, (IGraph.list demoListGraph).VerticesCount.toNat ≤ fuel →
        DFS (.list demoListGraph) fuel 3
          (List.replicate (IGraph.list demoListGraph).VerticesCount.toNat false, [])
          = some (visited, 3 :: rest)) ∧
      (3 :: rest).Nodup ∧ (∀ x, x ∈ 3 :: rest ↔ Reach (.list demoListGraph) 3 x) ∧
      ∀ x ∈ rest, ∃ p, Edge (.list demoListGraph) p x ∧ Before p x (3 :: rest) :=
  ⟨demo_valid,
    DFS_preorder_reachable (.list demoListGraph) 3 demo_valid (by decide) (by decide)⟩

/-! ## Edge insertion and queries, representation by representation -/

theorem listGraph_addEdge_none_iff (g : ListGraph) (frm dst : Int) :
    g.AddEdge frm dst = none ↔
      ¬ (0 ≤ frm ∧ frm < g.VerticesCount ∧ 0 ≤ dst ∧ dst < g.VerticesCount) := by
  constructor
  · rintro h ⟨h0, h1, h2, h3⟩
    obtain ⟨g1, hg1⟩ := listGraph_addEdge_succeeds g frm dst h0 h1 h2 h3
    rw [h] at hg1
    cases hg1
  · intro h
    unfold ListGraph.AddEdge
    split
    · rename_i hf
      split
      · rename_i hd
        exact absurd ⟨hf.1, hf.2, hd.1, hd.2⟩ h
      · rfl
    · rfl

/-- C11 (failing inputs). The `ArcGraph` converted from `ListGraph(2)` without
edges has two vertices and no pair, and `AddEdge(0, 1)` fails its assertion
`from < arrVert.size()` although both ends are vertices.  Conversely, on
`ArcGraph(1)` after `AddEdge(0, 0)` the call `AddEdge(1, 1)` succeeds although
`1` is not a vertex.  On `MatrixGraph(1)`, `AddEdge(0, 0)` passes the assertions
and writes outside the empty row. -/
theorem addEdge_range_fails :
    (ArcGraph.ofGraph (.list twoVertexListGraph)) = some ⟨[], 2⟩ ∧
    ((ArcGraph.ofGraph (.list twoVertexListGraph)).bind fun a => a.AddEdge 0 1) = none ∧
    ((ArcGraph.ofSize 1).bind fun a => a.AddEdge 0 0) = some ⟨[(0, 0), (0, 0)], 1⟩ ∧
    ((ArcGraph.ofSize 1).bind fun a => (a.AddEdge 0 0).bind fun a1 => a1.AddEdge 1 1)
      = some ⟨[(0, 0), (0, 0), (1, 1)], 1⟩ ∧
    ((MatrixGraph.ofSize 1).bind fun m => m.AddEdge 0 0) = none := by
  decide

/-- C12 (failing inputs). The `ArcGraph` converted from the `ListGraph` with two
vertices and the edge `(0, 1)` has two vertices and one pair; its
`GetPrevVertices(1)` fails the assertion `vertex < arrVert.size()` although `1`
is a vertex, while its `GetNextVertices(1)` succeeds.  Conversely, on
`ArcGraph(1)` after `AddEdge(0, 0)`, `GetPrevVertices(1)` succeeds although `1`
is not a vertex. -/
theorem arcGraph_queries_range_fails :
    (ArcGraph.ofGraph (.list oneEdgeListGraph)) = some ⟨[(0, 1)], 2⟩ ∧
    ((ArcGraph.ofGraph (.list oneEdgeListGraph)).bind fun a => a.GetNextVertices 1) = some [] ∧
    ((ArcGraph.ofGraph (.list oneEdgeListGraph)).bind fun a => a.GetPrevVertices 1) = none ∧
    ((ArcGraph.ofSize 1).bind fun a => (a.AddEdge 0 0).bind fun a1 => a1.GetPrevVertices 1)
      = some [] ∧
    ((ArcGraph.ofSize 1).bind fun a => (a.AddEdge 0 0).bind fun a1 => a1.GetNextVertices 1)
      = none := by
  decide

/-- C13 (counterexample). The `MatrixGraph` converted from the `ListGraph` with
two vertices and the edge `(0, 1)` has two vertices, and for vertex `0` it
returns the copied successor list `[1]`, of length `1` and not `2`: its entry at
position `0` is non-zero although there is no edge from `0` to `0`, and it has
no entry at position `1` although there is an edge from `0` to `1`. -/
theorem matrixGraph_row_counterexample :
    (MatrixGraph.ofGraph (.list oneEdgeListGraph)).map MatrixGraph.VerticesCount = some 2 ∧
    ((MatrixGraph.ofGraph (.list oneEdgeListGraph)).bind fun m => m.GetNextVertices 0)
      = some [1] ∧
    ((MatrixGraph.ofGraph (.list oneEdgeListGraph)).bind fun m =>
      (m.GetNextVertices 0).map List.length) ≠ some 2 ∧
    ((MatrixGraph.ofGraph (.list oneEdgeListGraph)).bind fun m =>
      (m.GetNextVertices 0).bind fun row => vecGet row 0) = some 1 ∧
    ((MatrixGraph.ofGraph (.list oneEdgeListGraph)).bind fun m =>
      (m.GetNextVertices 0).bind fun row => vecGet row 1) = none ∧
    oneEdgeListGraph.GetNextVertices 0 = some [1] := by
  decide

theorem matrixGraph_addEdge_idem (g g1 : MatrixGraph) (frm dst : Int)
    (h : g.AddEdge frm dst = some g1) :
    g1.AddEdge frm dst = some g1 ∧
      ∃ row, vecGet g1.adjMatrix frm = some row ∧ vecGet row dst = some 1 := by
  unfold MatrixGraph.AddEdge at h
  split at h
  · rename_i hf
    split at h
    · rename_i hd
      simp only [Option.bind_eq_some, Option.map_eq_some'] at h
      obtain ⟨row, hrow, row1, hrow1, rows1, hrows1, rfl⟩ := h
      have hl := vecSet_length hrows1
      have hl1 := vecSet_length hrow1
      have hget : vecGet rows1 frm = some row1 := by
        rw [vecGet_vecSet hrows1]; simp
      have hcell : vecGet row1 dst = some 1 := by
        rw [vecGet_vecSet hrow1]; simp
      obtain ⟨hd0, hd1, hr1⟩ := vecSet_some hrow1
      obtain ⟨hf0, hf1, hrs1⟩ := vecSet_some hrows1
      refine ⟨?_, row1, hget, hcell⟩
      have hset1 : vecSet row1 dst 1 = some row1 := by
        rw [vecSet_of_range row1 dst 1 hd0 (by omega), hr1, List.set_set]
      have hset2 : vecSet rows1 frm row1 = some rows1 := by
        rw [vecSet_of_range rows1 frm row1 hf0 (by omega), hrs1, List.set_set]
      unfold MatrixGraph.AddEdge
      simp only [hl]
      rw [if_pos hf, if_pos hd]
      simp [hget, hset1, hset2]
    · cases h
  · cases h

/-- C14 (failing input). On `MatrixGraph(1)` the call `AddEdge(0, 0)` with the
valid ends `0, 0` sets no cell: the only row is empty, and the write
`adjMatrix[0][0] = 1` falls outside it.  The same holds on the `MatrixGraph`
converted from the `ListGraph` with two vertices and the edge `(0, 1)`, for
`AddEdge(1, 0)` and for `AddEdge(0, 1)`. -/
theorem matrixGraph_addEdge_fails :
    (MatrixGraph.ofSize 1) = some ⟨[[]]⟩ ∧
    ((MatrixGraph.ofSize 1).bind fun m => m.AddEdge 0 0) = none ∧
    ((MatrixGraph.ofGraph (.list oneEdgeListGraph)).bind fun m => m.AddEdge 1 0) = none ∧
    ((MatrixGraph.ofGraph (.list oneEdgeListGraph)).bind fun m => m.AddEdge 0 1) = none ∧
    ((MatrixGraph.ofGraph (.list oneEdgeListGraph)).bind fun m => m.AddEdge 0 0)
      = some ⟨[[1], []]⟩ := by
  decide

/-- C15. On a `ListGraph`, `AddEdge(from, to)` with both ends in range succeeds;
afterwards `GetNextVertices(from)` is the former sequence with `to` appended,
`GetNextVertices(u)` is what it was for every other `u`, and `VerticesCount()`
is unchanged. -/
theorem listGraph_addEdge_appends (g : ListGraph) (frm dst : Int) (h0 : 0 ≤ frm)
    (h1 : frm < g.VerticesCount) (h2 : 0 ≤ dst) (h3 : dst < g.VerticesCount) :
    ∃ g1 next, g.AddEdge frm dst = some g1 ∧ g.GetNextVertices frm = some next ∧
      g1.GetNextVertices frm = some (next ++ [dst]) ∧
      (∀ u, u ≠ frm → g1.GetNextVertices u = g.GetNextVertices u) ∧
      g1.VerticesCount = g.VerticesCount := by
  have h1a : frm < (g.adjacencyLists.length : Int) := h1
  have h3a : dst < (g.adjacencyLists.length : Int) := h3
  obtain ⟨row, hrow⟩ := vecGet_of_range g.adjacencyLists frm h0 h1a
  have hset := vecSet_of_range g.adjacencyLists frm (row ++ [dst]) h0 h1a
  have hget := vecGet_vecSet hset
  have hlen : (g.adjacencyLists.set frm.toNat (row ++ [dst])).length = g.adjacencyLists.length :=
    by simp
  refine ⟨⟨g.adjacencyLists.set frm.toNat (row ++ [dst])⟩, row, ?_, ?_, ?_, ?_, ?_⟩
  · simp [ListGraph.AddEdge, h0, h1a, h2, h3a, hrow, hset]
  · simp [ListGraph.GetNextVertices, h0, h1a, hrow]
  · simp only [ListGraph.GetNextVertices, hlen]
    rw [if_pos ⟨h0, h1a⟩, hget]
    simp
  · intro u hu
    simp only [ListGraph.GetNextVertices, hlen]
    rw [hget u, if_neg hu]
  · simp only [ListGraph.VerticesCount, hlen]

theorem listGraph_addEdge_appends_witness :
    (0 : Int) ≤ 5 ∧ (5 : Int) < demoListGraph.VerticesCount ∧ (0 : Int) ≤ 2 ∧
    (2 : Int) < demoListGraph.VerticesCount ∧
    ∃ g1 next, demoListGraph.AddEdge 5 2 = some g1 ∧
      demoListGraph.GetNextVertices 5 = some next ∧
      g1.GetNextVertices 5 = some (next ++ [2]) ∧
      (∀ u, u ≠ 5 → g1.GetNextVertices u = demoListGraph.GetNextVertices u) ∧
      g1.VerticesCount = demoListGraph.VerticesCount :=
  ⟨by decide, by decide, by decide, by decide,
    listGraph_addEdge_appends demoListGraph 5 2 (by decide) (by decide) (by decide) (by decide)⟩

/-! ## Successors of a `ListGraph` built by `AddEdge` -/

theorem inRange_ofSize (n : Int) (g : ListGraph) (h : ListGraph.ofSize n = some g) :
    g.InRange ∧ g.VerticesCount = n := by
  unfold ListGraph.ofSize at h
  split at h
  · rename_i hn
    cases h
    constructor
    · intro row hrow w hw
      rw [List.eq_of_mem_replicate hrow] at hw
      simp at hw
    · simp only [ListGraph.VerticesCount, List.length_replicate]
      omega
  · cases h

theorem inRange_addEdge (g g1 : ListGraph) (frm dst : Int) (hg : g.InRange)
    (h : g.AddEdge frm dst = some g1) : g1.InRange ∧ g1.VerticesCount = g.VerticesCount := by
  unfold ListGraph.AddEdge at h
  split at h
  · rename_i hf
    split at h
    · rename_i hd
      simp only [Option.bind_eq_some, Option.map_eq_some'] at h
      obtain ⟨row, hrow, rows1, hrows1, rfl⟩ := h
      obtain ⟨_, _, hrs⟩ := vecSet_some hrows1
      have hl := vecSet_length hrows1
      have hrowmem : row ∈ g.adjacencyLists := by
        rw [vecGet_some_iff] at hrow
        exact List.get?_mem hrow.2
      constructor
      · intro r hr w hw
        simp only [hl]
        rw [hrs] at hr
        rcases List.mem_or_eq_of_mem_set hr with hold | hnew
        · exact hg r hold w hw
        · rw [hnew] at hw
          rcases List.mem_append.1 hw with hw1 | hw1
          · exact hg row hrowmem w hw1
          · simp only [List.mem_singleton] at hw1
            rw [hw1]
            exact hd
      · simp only [ListGraph.VerticesCount, hl]
    · cases h
  · cases h

theorem inRange_addEdges (es : List (Int × Int)) :
    ∀ (g : ListGraph) (r : IGraph), g.InRange → addEdges (.list g) es = some r →
      ∃ g1, r = .list g1 ∧ g1.InRange ∧ g1.VerticesCount = g.VerticesCount := by
  induction es with
  | nil =>
    intro g r hg h
    simp only [addEdges, Option.some.injEq] at h
    exact ⟨g, h.symm, hg, rfl⟩
  | cons e rest ih =>
    intro g r hg h
    simp only [addEdges, IGraph.AddEdge, Option.bind_eq_some, Option.map_eq_some'] at h
    obtain ⟨g2, ⟨g3, h3, rfl⟩, hrest⟩ := h
    obtain ⟨hg3, hc3⟩ := inRange_addEdge g g3 e.1 e.2 hg h3
    obtain ⟨g1, hr, hg1, hc1⟩ := ih g3 r hg3 hrest
    exact ⟨g1, hr, hg1, hc1.trans hc3⟩

theorem next_of_inRange (g : ListGraph) (hg : g.InRange) (v : Int) (next : List Int)
    (h : g.GetNextVertices v = some next) : ∀ w ∈ next, 0 ≤ w ∧ w < g.VerticesCount := by
  unfold ListGraph.GetNextVertices at h
  split at h
  · rw [vecGet_some_iff] at h
    exact hg next (List.get?_mem h.2)
  · cases h

theorem validSuccessors_of_inRange (g : ListGraph) (hg : g.InRange) :
    ValidSuccessors (.list g) := by
  intro v h0 h1
  obtain ⟨next, hnext⟩ := (consistent_list g).2 v h0 h1
  exact ⟨next, hnext, next_of_inRange g hg v next hnext⟩

/-- C20. A `ListGraph` constructed with size `N` and then extended by `AddEdge`
calls that all pass their assertions still has `N` vertices, and every element
of every `GetNextVertices(v)` lies in `[0, N)`.  Consequently a read
`visited[nextVertex]` or a write `visited[nextVertex] = true` on markers of
size `N` is in bounds for every `nextVertex` that `GetNextVertices` returns,
and `mainBFS`, `mainDFS` and `topologicalSort` run to their end. -/
theorem listGraph_successors_in_range (n : Int) (g0 : ListGraph) (es : List (Int × Int))
    (r : IGraph) (h0 : ListGraph.ofSize n = some g0) (h1 : addEdges (.list g0) es = some r) :
    r.VerticesCount = n ∧
    (∀ v next, r.GetNextVertices v = some next → ∀ w ∈ next, 0 ≤ w ∧ w < n) ∧
    (∀ (visited : List Bool) v next, (visited.length : Int) = n →
      r.GetNextVertices v = some next → ∀ w ∈ next,
        (∃ b, vecGet visited w = some b) ∧ ∃ visited1, vecSet visited w true = some visited1) ∧
    ValidSuccessors r ∧
    ∃ bfs dfs sorted, ∀ fuel, n.toNat ≤ fuel →
      mainBFS r fuel = some bfs ∧ mainDFS r fuel = some dfs ∧
      topologicalSort r fuel = some sorted := by
  obtain ⟨hg0, hc0⟩ := inRange_ofSize n g0 h0
  obtain ⟨g1, rfl, hg1, hc1⟩ := inRange_addEdges es g0 r hg0 h1
  have hcount : (IGraph.list g1).VerticesCount = n := hc1.trans hc0
  have hv := validSuccessors_of_inRange g1 hg1
  have hN : 0 ≤ (IGraph.list g1).VerticesCount := (consistent_list g1).1
  have hin : ∀ v next, (IGraph.list g1).GetNextVertices v = some next →
      ∀ w ∈ next, 0 ≤ w ∧ w < n := by
    intro v next hnext w hw
    have := next_of_inRange g1 hg1 v next hnext w hw
    rw [hc1, hc0] at this
    exact this
  refine ⟨hcount, hin, ?_, hv, ?_⟩
  · intro visited v next hlen hnext w hw
    have hw1 := hin v next hnext w hw
    exact ⟨vecGet_of_range visited w hw1.1 (by omega),
      _, vecSet_of_range visited w true hw1.1 (by omega)⟩
  · obtain ⟨bfs, hb, _⟩ := mainBFS_spec (.list g1) n.toNat hN hv (by rw [hcount])
    obtain ⟨dfs, hd, _⟩ := mainDFS_spec (.list g1) n.toNat hN hv (by rw [hcount])
    obtain ⟨sorted, hs, _⟩ := topologicalSort_spec (.list g1) n.toNat hN hv (by rw [hcount])
    exact ⟨bfs, dfs, sorted, fun fuel hf =>
      ⟨mainBFS_fuel_le _ hf bfs hb, mainDFS_fuel_le _ hf dfs hd,
        topologicalSort_fuel_le _ hf sorted hs⟩⟩

theorem listGraph_successors_in_range_witness :
    ListGraph.ofSize 7 = some ⟨List.replicate 7 []⟩ ∧
    addEdges (.list ⟨List.replicate 7 []⟩) demoEdges = some (.list demoListGraph) ∧
    (IGraph.list demoListGraph).VerticesCount = 7 ∧
    (∀ v next, (IGraph.list demoListGraph).GetNextVertices v = some next →
      ∀ w ∈ next, 0 ≤ w ∧ w < 7) ∧
    (∀ (visited : List Bool) v next, (visited.length : Int) = 7 →
      (IGraph.list demoListGraph).GetNextVertices v = some next → ∀ w ∈ next,
        (∃ b, vecGet visited w = some b) ∧ ∃ visited1, vecSet visited w true = some visited1) ∧
    ValidSuccessors (.list demoListGraph) ∧
    ∃ bfs dfs sorted, ∀ fuel, (7 : Int).toNat ≤ fuel →
      mainBFS (.list demoListGraph) fuel = some bfs ∧
      mainDFS (.list demoListGraph) fuel = some dfs ∧
      topologicalSort (.list demoListGraph) fuel = some sorted :=
  ⟨by decide, by decide,
    listGraph_successors_in_range 7 ⟨List.replicate 7 []⟩ demoEdges (.list demoListGraph)
      (by decide) (by decide)⟩

/-! ## Topological sort of a graph that may have cycles -/

/-- C18. On every graph with `N` vertices whose successors are valid, with or
without cycles, `topologicalSort` returns (the same sequence for every
recursion bound of at least `N`) a sequence of length `N` that is a permutation
of `0, ..., N-1`: every vertex occurs in it exactly once. -/
theorem topologicalSort_perm (g : IGraph) (hN : 0 ≤ g.VerticesCount) (hv : ValidSuccessors g) :
    ∃ sorted, (∀ fuel, g.VerticesCount.toNat ≤ fuel → topologicalSort g fuel = some sorted) ∧
      (sorted.length : Int) = g.VerticesCount ∧ sorted.Perm (indices g.VerticesCount) ∧
      ∀ x, 0 ≤ x → x < g.VerticesCount → sorted.count x = 1 := by
  obtain ⟨sorted, hrun, hperm, _⟩ :=
    topologicalSort_spec g g.VerticesCount.toNat hN hv (le_refl _)
  refine ⟨sorted, fun fuel hf => topologicalSort_fuel_le g hf sorted hrun, ?_, hperm, ?_⟩
  · rw [hperm.length_eq]
    simp only [indices, List.length_map, List.length_range]
    omega
  · intro x h0 h1
    rw [hperm.count_eq]
    exact List.count_eq_one_of_mem (nodup_indices _) ((mem_indices _ x).2 ⟨h0, h1⟩)

theorem cycle_not_acyclic : ¬ Acyclic (.list cycleListGraph) := by
  intro hac
  have e01 : Edge (.list cycleListGraph) 0 1 := ⟨by decide, by decide, [1], by decide, by simp⟩
  have e12 : Edge (.list cycleListGraph) 1 2 := ⟨by decide, by decide, [2], by decide, by simp⟩
  have e20 : Edge (.list cycleListGraph) 2 0 := ⟨by decide, by decide, [0], by decide, by simp⟩
  exact hac 0 (((Relation.TransGen.single e01).tail e12).tail e20)

theorem topologicalSort_perm_witness :
    ¬ Acyclic (.list cycleListGraph) ∧ ValidSuccessors (.list cycleListGraph) ∧
    ∃ sorted,
      (∀ fuel, (IGraph.list cycleListGraph).VerticesCount.toNat ≤ fuel →
        topologicalSort (.list cycleListGraph) fuel = some sorted) ∧
      (sorted.length : Int) = (IGraph.list cycleListGraph).VerticesCount ∧
      sorted.Perm (indices (IGraph.list cycleListGraph).VerticesCount) ∧
      ∀ x, 0 ≤ x → x < (IGraph.list cycleListGraph).VerticesCount → sorted.count x = 1 :=
  ⟨cycle_not_acyclic, validSuccessors_of_check (by decide),
    topologicalSort_perm (.list cycleListGraph) (by decide) (validSuccessors_of_check (by decide))⟩

/-! ## The sets of a `SetGraph` -/

theorem forEach_body_some {σ τ : Type} (f : Int → Option τ) (k : Int → σ → τ → Option σ) :
    ∀ (xs : List Int) (st r : σ),
      forEach (fun i s => (f i).bind (k i s)) xs st = some r → ∀ i ∈ xs, ∃ l, f i = some l := by
  intro xs
  induction xs with
  | nil => intro st r _ i hi; simp at hi
  | cons x rest ih =>
    intro st r h i hi
    simp only [forEach, Option.bind_eq_some] at h
    obtain ⟨st1, ⟨l, hl, _⟩, hrest⟩ := h
    rcases List.mem_cons.1 hi with rfl | hi1
    · exact ⟨l, hl⟩
    · exact ih st1 r hrest i hi1

theorem setGraph_ofGraph_some (graph : IGraph) (g : SetGraph)
    (h : SetGraph.ofGraph graph = some g) :
    Consistent graph ∧ g.vertexCount = graph.VerticesCount ∧
      (g.adjSet.length : Int) = graph.VerticesCount ∧
      ∀ v, 0 ≤ v → v < graph.VerticesCount →
        ∃ s l, vecGet g.adjSet v = some s ∧ graph.GetNextVertices v = some l ∧ s.Nodup ∧
          ∀ x, x ∈ s ↔ x ∈ l := by
  have h1 := h
  unfold SetGraph.ofGraph at h1
  split at h1
  · rename_i hN
    simp only [Option.map_eq_some'] at h1
    obtain ⟨sets, hrun, rfl⟩ := h1
    have hsome := forEach_body_some graph.GetNextVertices
      (fun frm sets next => forEach (fun dst sets1 => (vecGet sets1 frm).bind fun s =>
          vecSet sets1 frm (setInsert s dst)) next sets) _ _ _ hrun
    have hc : Consistent graph :=
      ⟨hN, fun v h0 h1 => hsome v ((mem_indices _ v).2 ⟨h0, h1⟩)⟩
    obtain ⟨sets1, hrun1, hlen, hdone, _⟩ :=
      setsLoop_spec graph.GetNextVertices graph.VerticesCount.toNat graph.VerticesCount.toNat
        (le_refl _) (consistent_nat hc)
    rw [indices_eq] at hrun
    rw [hrun1] at hrun
    cases hrun
    refine ⟨hc, rfl, by simp only [hlen]; omega, ?_⟩
    intro v hv0 hv1
    have hv : ((v.toNat : Nat) : Int) = v := by omega
    obtain ⟨s, l, hs, hl, hnd, hmem⟩ := hdone v.toNat (by omega)
    rw [hv] at hs hl
    exact ⟨s, l, hs, hl, hnd, hmem⟩
  · cases h1

theorem exact_of_built (g : SetGraph) (ins : Int → List Int) (h : g.Built ins) :
    g.Exact ins := by
  induction h with
  | size n junk g h =>
    unfold SetGraph.ofSize at h
    split at h
    · cases h
      intro v s hs
      rw [vecGet_some_iff] at hs
      have := List.get?_mem hs.2
      rw [List.eq_of_mem_replicate this]
      simp
    · cases h
  | conv graph g h =>
    obtain ⟨_, _, hlen, hall⟩ := setGraph_ofGraph_some graph g h
    intro v s hs
    have hr := vecGet_range hs
    obtain ⟨s1, l, hs1, hl, hnd, hmem⟩ := hall v hr.1 (by omega)
    rw [hs] at hs1
    cases hs1
    refine ⟨hnd, ?_⟩
    intro x
    rw [hmem x]
    have hin : 0 ≤ v ∧ v < graph.VerticesCount := ⟨hr.1, by omega⟩
    simp [reportedTargets, hin, hl]
  | add g g1 ins frm dst _ h ih =>
    unfold SetGraph.AddEdge at h
    split at h
    · split at h
      · simp only [Option.bind_eq_some, Option.map_eq_some'] at h
        obtain ⟨s0, hs0, sets, hsets, rfl⟩ := h
        intro v s hs
        simp only at hs
        rw [vecGet_vecSet hsets] at hs
        by_cases hv : v = frm
        · rw [if_pos hv] at hs
          cases hs
          rw [hv]
          obtain ⟨hnd, hmem⟩ := ih frm s0 hs0
          refine ⟨nodup_setInsert dst hnd, ?_⟩
          intro x
          simp only [if_true, List.mem_append, List.mem_singleton]
          rw [mem_setInsert, hmem x]
        · rw [if_neg hv] at hs
          obtain ⟨hnd, hmem⟩ := ih v s hs
          refine ⟨hnd, ?_⟩
          intro x
          simp only [hv, if_false]
          exact hmem x
      · cases h
    · cases h

/-- C16. In every state of a `SetGraph` reached from `SetGraph(int)` or from
`SetGraph(const IGraph&)` by `AddEdge` calls, `GetNextVertices(v)` answers for
each `v` that has a set, and every answer is free of duplicates and has as its
elements exactly the targets inserted for `v`. -/
theorem setGraph_no_duplicates (g : SetGraph) (ins : Int → List Int) (h : g.Built ins) :
    (∀ v, 0 ≤ v → v < (g.adjSet.length : Int) → ∃ l, g.GetNextVertices v = some l) ∧
    ∀ v l, g.GetNextVertices v = some l → l.Nodup ∧ ∀ x, x ∈ l ↔ x ∈ ins v := by
  have hex := exact_of_built g ins h
  constructor
  · intro v h0 h1
    obtain ⟨l, hl⟩ := vecGet_of_range g.adjSet v h0 h1
    exact ⟨l, by simp [SetGraph.GetNextVertices, h0, h1, hl]⟩
  · intro v l hl
    unfold SetGraph.GetNextVertices at hl
    split at hl
    · exact hex v l hl
    · cases hl

theorem setGraph_no_duplicates_witness :
    SetGraph.ofGraph (.list duplicateListGraph) = some ⟨[[1, 0], []], 2⟩ ∧
    (SetGraph.mk [[1, 0], []] 2).AddEdge 0 1 = some ⟨[[1, 0], []], 2⟩ ∧
    (SetGraph.mk [[1, 0], []] 2).GetNextVertices 0 = some [1, 0] ∧
    ((∀ v, 0 ≤ v → v < ((SetGraph.mk [[1, 0], []] 2).adjSet.length : Int) →
        ∃ l, (SetGraph.mk [[1, 0], []] 2).GetNextVertices v = some l) ∧
      ∀ v l, (SetGraph.mk [[1, 0], []] 2).GetNextVertices v = some l →
        l.Nodup ∧ ∀ x, x ∈ l ↔
          x ∈ (if v = 0 then reportedTargets (.list duplicateListGraph) v ++ [1]
            else reportedTargets (.list duplicateListGraph) v)) :=
  ⟨by decide, by decide, by decide,
    setGraph_no_duplicates ⟨[[1, 0], []], 2⟩ _
      (SetGraph.Built.add ⟨[[1, 0], []], 2⟩ ⟨[[1, 0], []], 2⟩ _ 0 1
        (SetGraph.Built.conv (.list duplicateListGraph) ⟨[[1, 0], []], 2⟩ (by decide))
        (by decide))⟩

/-! ## Conversion to an `ArcGraph` -/

theorem arcGraph_ofGraph_sequence (g : IGraph) (h : AnswersOnVertices g) :
    ∃ a, ArcGraph.ofGraph g = some a ∧ a.VerticesCount = g.VerticesCount ∧
      ∀ v, 0 ≤ v → v < g.VerticesCount →
        ∃ next, g.GetNextVertices v = some next ∧ a.GetNextVertices v = some next := by
  obtain ⟨arcs, hrun, hfil⟩ :=
    arcsLoop_spec g.GetNextVertices g.VerticesCount.toNat
      (fun i hi => h i (by omega) (by omega))
  refine ⟨⟨arcs, g.VerticesCount⟩, by simp [ArcGraph.ofGraph, indices_eq, hrun], rfl, ?_⟩
  intro v hv0 hv1
  obtain ⟨next, hnext⟩ := h v hv0 hv1
  refine ⟨next, hnext, ?_⟩
  have hin : 0 ≤ v ∧ v < g.VerticesCount := ⟨hv0, hv1⟩
  have hin1 : 0 ≤ v ∧ v < ((g.VerticesCount.toNat : Nat) : Int) := ⟨hv0, by omega⟩
  simp only [ArcGraph.GetNextVertices, ArcGraph.VerticesCount, hin, and_self, if_true]
  rw [hfil v, if_pos hin1, hnext]

/-- C17 (failing input). For `SetGraph(1)` whose uninitialised `vertexCount`
holds `2`, vertex `0` is valid and has the empty successor sequence, yet the
construction of an `ArcGraph` from it asks for the successors of vertex `1` and
fails the assertion of `SetGraph::GetNextVertices`: there is no `ArcGraph(g)`. -/
theorem arcGraph_of_setGraph_ofSize_fails :
    (SetGraph.ofSize 1 2).map SetGraph.VerticesCount = some 2 ∧
    ((SetGraph.ofSize 1 2).bind fun s => s.GetNextVertices 0) = some [] ∧
    ((SetGraph.ofSize 1 2).bind fun s => s.GetNextVertices 1) = none ∧
    ((SetGraph.ofSize 1 2).bind fun s => ArcGraph.ofGraph (.set s)) = none := by
  decide

/-! ## Shortest-path distance -/

theorem pathN_zero {g : IGraph} {a b : Int} (h : PathN g 0 a b) : a = b := by
  cases h
  rfl

theorem pathN_succ {g : IGraph} {n : Nat} {a c : Int} (h : PathN g (n + 1) a c) :
    ∃ b, PathN g n a b ∧ Edge g b c := by
  cases h with
  | step hp e => exact ⟨_, hp, e⟩

theorem reach_of_pathN {g : IGraph} {n : Nat} {a b : Int} (h : PathN g n a b) : Reach g a b := by
  induction h with
  | zero a => exact Relation.ReflTransGen.refl
  | step _ e ih => exact Relation.ReflTransGen.tail ih e

theorem pathN_of_reach {g : IGraph} {a b : Int} (h : Reach g a b) : ∃ n, PathN g n a b := by
  induction h with
  | refl => exact ⟨0, PathN.zero a⟩
  | tail _ e ih =>
    obtain ⟨n, hn⟩ := ih
    exact ⟨n + 1, PathN.step hn e⟩

theorem isDist_exists {g : IGraph} {s x : Int} (h : Reach g s x) : ∃ d, IsDist g s x d := by
  classical
  have hex := pathN_of_reach h
  exact ⟨Nat.find hex, Nat.find_spec hex, fun m hm => Nat.find_min' hex hm⟩

theorem isDist_unique {g : IGraph} {s x : Int} {d1 d2 : Nat} (h1 : IsDist g s x d1)
    (h2 : IsDist g s x d2) : d1 = d2 :=
  le_antisymm (h1.2 d2 h2.1) (h2.2 d1 h1.1)

theorem isDist_self (g : IGraph) (s : Int) : IsDist g s s 0 :=
  ⟨PathN.zero s, fun _ _ => Nat.zero_le _⟩

theorem isDist_pred {g : IGraph} {s w : Int} {m : Nat} (h : IsDist g s w (m + 1)) :
    ∃ p, IsDist g s p m ∧ Edge g p w := by
  obtain ⟨p, hp, e⟩ := pathN_succ h.1
  refine ⟨p, ⟨hp, ?_⟩, e⟩
  intro k hk
  have := h.2 (k + 1) (PathN.step hk e)
  omega

theorem isDist_edge {g : IGraph} {s c w : Int} {dc dw : Nat} (hc : IsDist g s c dc)
    (e : Edge g c w) (hw : IsDist g s w dw) : dw ≤ dc + 1 :=
  hw.2 (dc + 1) (PathN.step hc.1 e)

/-! ## The order of a breadth-first search -/

theorem bfsStep_shape {g : IGraph} (hv : ValidSuccessors g) (visited : List Bool) (cur : Int)
    (rest out : List Int) (hlen : (visited.length : Int) = g.VerticesCount)
    (hcur : Marked visited cur) :
    ∃ visited1 added,
      bfsStep g visited cur rest out = some ⟨visited1, rest ++ added, out ++ [cur]⟩ ∧
      (∀ x ∈ added, ¬ Marked visited x) ∧ ∀ x ∈ added, Edge g cur x := by
  have hr := vecGet_range hcur
  have hcur1 : cur < g.VerticesCount := by omega
  obtain ⟨next, hnext, hval⟩ := hv cur hr.1 hcur1
  obtain ⟨v1, added, hrun, _, _, hnew, hsub, _, _, _⟩ :=
    forEach_bfsScan_spec g.VerticesCount next visited rest hlen hval
  refine ⟨v1, added, by simp [bfsStep, hnext, hrun], hnew, ?_⟩
  intro x hx
  exact ⟨hr.1, hcur1, next, hnext, hsub x hx⟩

theorem bfs_frontier {g : IGraph} {s : Int} {visited : List Bool} {c : Int}
    {rest out : List Int} (hgood : BFSGood g (Reach g s) ⟨visited, c :: rest, out⟩)
    (hlev : BFSLevel g s ⟨visited, c :: rest, out⟩) {dc : Nat} (hdc : IsDist g s c dc) :
    ∀ (m : Nat) (w : Int), IsDist g s w m → m ≤ dc → Marked visited w := by
  have hmk := hgood.marked
  simp only at hmk
  have hsorted := hlev.sorted
  simp only at hsorted
  intro m
  induction m with
  | zero =>
    intro w hw _
    have hsw := pathN_zero hw.1
    rw [← hsw]
    exact (hmk s).2 hlev.src
  | succ m ih =>
    intro w hw hle
    obtain ⟨p, hp, e⟩ := isDist_pred hw
    have hpm := ih p hp (by omega)
    rcases List.mem_append.1 ((hmk p).1 hpm) with hpo | hpq
    · exact hgood.closed p hpo w e
    · exfalso
      rcases List.mem_cons.1 hpq with hpc | hpr
      · rw [hpc] at hp
        have := isDist_unique hp hdc
        omega
      · have hcp : DistLe g s c p := by
          have h2 := (List.pairwise_append.1 hsorted).2.1
          exact (List.pairwise_cons.1 h2).1 p hpr
        have := hcp dc m hdc hp
        omega

theorem bfsStep_level {g : IGraph} {s : Int} (hv : ValidSuccessors g) (visited : List Bool)
    (c : Int) (rest out : List Int)
    (hgood : BFSGood g (Reach g s) ⟨visited, c :: rest, out⟩)
    (hlev : BFSLevel g s ⟨visited, c :: rest, out⟩) (st1 : BFSState)
    (hstep : bfsStep g visited c rest out = some st1) : BFSLevel g s st1 := by
  have hmk := hgood.marked
  simp only at hmk
  have hlen := hgood.len
  simp only at hlen
  have hcM : Marked visited c := (hmk c).2 (by simp)
  obtain ⟨v1, added, hshape, hnew, hedge⟩ := bfsStep_shape hv visited c rest out hlen hcM
  rw [hshape] at hstep
  cases hstep
  have hcreach : Reach g s c := hgood.inR c (by simp)
  obtain ⟨dc, hdc⟩ := isDist_exists hcreach
  have hsorted := hlev.sorted
  simp only at hsorted
  have hspan := hlev.span c rest rfl
  have hpw := List.pairwise_append.1 hsorted
  have hcons := List.pairwise_cons.1 hpw.2.1
  -- the distance of a vertex that enters the queue
  have hadd : ∀ x ∈ added, ∀ dx, IsDist g s x dx → dx = dc + 1 := by
    intro x hx dx hdx
    have h1 := isDist_edge hdc (hedge x hx) hdx
    by_cases h2 : dx ≤ dc
    · exact absurd (bfs_frontier hgood hlev hdc dx x hdx h2) (hnew x hx)
    · omega
  -- the distance of a vertex that was called back or queued before
  have hold : ∀ a ∈ out ++ c :: rest, ∀ da, IsDist g s a da → da ≤ dc + 1 := by
    intro a ha da hda
    rcases List.mem_append.1 ha with hao | haq
    · have := hpw.2.2 a hao c (List.mem_cons_self _ _) da dc hda hdc
      omega
    · exact hspan a haq dc da hdc hda
  have hrestge : ∀ z ∈ rest, ∀ dz, IsDist g s z dz → dc ≤ dz :=
    fun z hz dz hdz => hcons.1 z hz dc dz hdc hdz
  constructor
  · have := hlev.src
    simp only [List.mem_append, List.mem_cons, List.mem_singleton] at this ⊢
    tauto
  · have heq : (out ++ [c]) ++ (rest ++ added) = (out ++ c :: rest) ++ added := by simp
    simp only
    rw [heq]
    refine List.pairwise_append.2 ⟨hsorted, ?_, ?_⟩
    · apply List.pairwise_of_forall_mem_list
      intro a ha b hb da db hda hdb
      rw [hadd a ha da hda, hadd b hb db hdb]
    · intro a ha b hb da db hda hdb
      rw [hadd b hb db hdb]
      exact hold a ha da hda
  · intro c1 rest1 hq z hz dc1 dz hdc1 hdz
    simp only at hq hz
    have hc1mem : c1 ∈ rest ++ added := by rw [hq]; exact List.mem_cons_self _ _
    have hc1ge : dc ≤ dc1 := by
      rcases List.mem_append.1 hc1mem with h1 | h1
      · exact hrestge c1 h1 dc1 hdc1
      · have := hadd c1 h1 dc1 hdc1
        omega
    rcases List.mem_append.1 hz with hzr | hza
    · have := hspan z (List.mem_cons_of_mem _ hzr) dc dz hdc hdz
      omega
    · have := hadd z hza dz hdz
      omega

theorem bfsLoop_level {g : IGraph} {s : Int} (hv : ValidSuccessors g) :
    ∀ (fuel : Nat) (st fin : BFSState), BFSGood g (Reach g s) st → BFSLevel g s st →
      bfsLoop g fuel st = some fin → BFSLevel g s fin := by
  have hR : ∀ x w, Reach g s x → Edge g x w → Reach g s w :=
    fun x w hx hw => Relation.ReflTransGen.tail hx hw
  intro fuel
  induction fuel with
  | zero =>
    intro st fin _ hlev h
    simp only [bfsLoop, Option.some.injEq] at h
    rw [← h]
    exact hlev
  | succ fuel ih =>
    intro st fin hgood hlev h
    obtain ⟨visited, qu, out⟩ := st
    cases qu with
    | nil =>
      simp only [bfsLoop, Option.some.injEq] at h
      rw [← h]
      exact hlev
    | cons c rest =>
      simp only [bfsLoop, Option.bind_eq_some] at h
      obtain ⟨st1, hstep, hrun⟩ := h
      obtain ⟨st2, hstep2, hgood2, _⟩ := bfsStep_spec hv hR visited c rest out hgood
      rw [hstep] at hstep2
      cases hstep2
      exact ih st1 fin hgood2 (bfsStep_level hv visited c rest out hgood hlev st1 hstep) hrun

theorem bfsLevel_start (g : IGraph) (s : Int) (visited : List Bool) :
    BFSLevel g s ⟨visited, [s], []⟩ := by
  constructor
  · simp
  · simp
  · intro c rest hq z hz dc dz hdc hdz
    simp only [List.cons.injEq] at hq
    simp only [List.mem_singleton] at hz
    rw [hz] at hdz
    rw [← hq.1] at hdc
    have := isDist_unique hdc hdz
    omega

/-- C19. Single-source `BFS` from a valid source `s`, started with all markers
unset, returns (the same result for every iteration bound of at least `N`);
every vertex it calls back on has a shortest-path distance from `s`, and
whenever `x` is called back before `y`, the distance of `x` is at most the
distance of `y`. -/
theorem BFS_distance_order (g : IGraph) (s : Int) (hv : ValidSuccessors g)
    (h0 : 0 ≤ s) (h1 : s < g.VerticesCount) :
    ∃ visited out,
      (∀ fuel, g.VerticesCount.toNat ≤ fuel →
        BFS g fuel s (List.replicate g.VerticesCount.toNat false, []) = some (visited, out)) ∧
      (∀ x ∈ out, ∃ d, IsDist g s x d) ∧
      ∀ x y, Before x y out → ∀ dx dy, IsDist g s x dx → IsDist g s y dy → dx ≤ dy := by
  have hR : ∀ x w, Reach g s x → Edge g x w → Reach g s w :=
    fun x w hx hw => Relation.ReflTransGen.tail hx hw
  have hinit := BFSGood_initial g (Reach g s) (by omega)
  have hnew := not_marked_replicate g.VerticesCount.toNat s
  obtain ⟨visited, more, hrun, hgood, _, _⟩ :=
    BFS_spec hv hR g.VerticesCount.toNat s _ [] hinit h0 h1 hnew Relation.ReflTransGen.refl
      (count_false_le_fuel hinit.len (le_refl _))
  simp only [List.nil_append] at hrun hgood
  have hstart := BFS_start_good s _ [] hinit h0 h1 hnew Relation.ReflTransGen.refl
  have hlen : ((List.replicate g.VerticesCount.toNat false).length : Int) = g.VerticesCount :=
    hinit.len
  have hset := vecSet_of_range (List.replicate g.VerticesCount.toNat false) s true h0 (by omega)
  have hrun1 := hrun
  simp only [BFS, hset, Option.some_bind, Option.bind_eq_some] at hrun1
  obtain ⟨fin, hloop, hfin⟩ := hrun1
  have hlev := bfsLoop_level hv g.VerticesCount.toNat _ fin hstart
    (bfsLevel_start g s _) hloop
  have hsorted : more.Pairwise (DistLe g s) := by
    by_cases hq : fin.qu = []
    · rw [if_pos hq] at hfin
      simp only [Option.some.injEq, Prod.mk.injEq] at hfin
      have := hlev.sorted
      rw [hq, List.append_nil, hfin.2] at this
      exact this
    · rw [if_neg hq] at hfin
      cases hfin
  refine ⟨visited, more, fun fuel hf => BFS_fuel_le g hf s _ _ hrun, ?_, ?_⟩
  · intro x hx
    exact isDist_exists (hgood.inR x (by simpa using hx))
  · rintro x y ⟨l1, l2, rfl, hx⟩ dx dy hdx hdy
    exact (List.pairwise_append.1 hsorted).2.2 x hx y (List.mem_cons_self _ _) dx dy hdx hdy

theorem BFS_distance_order_witness :
    ValidSuccessors (.list demoListGraph) ∧
    ∃ visited out,
      (∀ fuel, (IGraph.list demoListGraph).VerticesCount.toNat ≤ fuel →
        BFS (.list demoListGraph) fuel 0
          (List.replicate (IGraph.list demoListGraph).VerticesCount.toNat false, [])
          = some (visited, out)) ∧
      (∀ x ∈ out, ∃ d, IsDist (.list demoListGraph) 0 x d) ∧
      ∀ x y, Before x y out → ∀ dx dy, IsDist (.list demoListGraph) 0 x dx →
        IsDist (.list demoListGraph) 0 y dy → dx ≤ dy :=
  ⟨demo_valid, BFS_distance_order (.list demoListGraph) 0 demo_valid (by decide) (by decide)⟩

/-! ## Where the queries of a `ListGraph` answer -/

theorem listGraph_queries_some_iff (g : ListGraph) (v : Int) :
    ((∃ next, g.GetNextVertices v = some next) ↔ 0 ≤ v ∧ v < g.VerticesCount) ∧
    ((∃ prev, g.GetPrevVertices v = some prev) ↔ 0 ≤ v ∧ v < g.VerticesCount) := by
  constructor
  · constructor
    · rintro ⟨next, h⟩
      unfold ListGraph.GetNextVertices at h
      split at h
      · rename_i hin
        exact hin
      · cases h
    · rintro ⟨h0, h1⟩
      exact (consistent_list g).2 v h0 h1
  · constructor
    · rintro ⟨prev, h⟩
      unfold ListGraph.GetPrevVertices at h
      split at h
      · rename_i hin
        exact hin
      · cases h
    · rintro ⟨h0, h1⟩
      have h2 : v < (g.adjacencyLists.length : Int) := h1
      exact ⟨prevScan v 0 g.adjacencyLists, by simp [ListGraph.GetPrevVertices, h0, h2]⟩

/-! ## What a row of a `MatrixGraph` holds -/

/-- C13 (amended). A `MatrixGraph` converted from a graph has the vertex count
of the source, and on every valid vertex `GetNextVertices` returns the very
sequence that the source returned: its entries are the successor indices, each
as often and in the order the source reported it, and its length is their
number. -/
theorem matrixGraph_row_is_successor_list (graph : IGraph) (m : MatrixGraph)
    (h : MatrixGraph.ofGraph graph = some m) :
    m.VerticesCount = graph.VerticesCount ∧
      ∀ v, 0 ≤ v → v < graph.VerticesCount →
        ∃ next, graph.GetNextVertices v = some next ∧ m.GetNextVertices v = some next := by
  have h1 := h
  unfold MatrixGraph.ofGraph at h1
  split at h1
  · rename_i hN
    simp only [Option.map_eq_some'] at h1
    obtain ⟨rows, hrun, rfl⟩ := h1
    have hsome := forEach_body_some graph.GetNextVertices
      (fun i rows next => vecSet rows i next) _ _ _ hrun
    have hc : Consistent graph :=
      ⟨hN, fun v h0 h1 => hsome v ((mem_indices _ v).2 ⟨h0, h1⟩)⟩
    obtain ⟨rows1, hrun1, hlen, hget⟩ :=
      copyRows_spec graph.GetNextVertices graph.VerticesCount.toNat graph.VerticesCount.toNat
        (le_refl _) (consistent_nat hc)
    rw [indices_eq] at hrun
    rw [hrun1] at hrun
    cases hrun
    constructor
    · simp only [MatrixGraph.VerticesCount, hlen]
      omega
    · intro v hv0 hv1
      obtain ⟨l, hl⟩ := hc.2 v hv0 hv1
      have hv : ((v.toNat : Nat) : Int) = v := by omega
      have hrow := hget v.toNat (by omega)
      rw [hv, hl] at hrow
      refine ⟨l, hl, ?_⟩
      have hin : 0 ≤ v ∧ v < (rows.length : Int) := ⟨hv0, by omega⟩
      simp only [MatrixGraph.GetNextVertices]
      rw [if_pos hin, vecGet_some_iff]
      exact ⟨hv0, hrow⟩
  · cases h1

theorem matrixGraph_row_is_successor_list_witness :
    MatrixGraph.ofGraph (.list demoListGraph) = some ⟨demoListGraph.adjacencyLists⟩ ∧
    (MatrixGraph.mk demoListGraph.adjacencyLists).VerticesCount
        = (IGraph.list demoListGraph).VerticesCount ∧
    ∀ v, 0 ≤ v → v < (IGraph.list demoListGraph).VerticesCount →
      ∃ next, (IGraph.list demoListGraph).GetNextVertices v = some next ∧
        (MatrixGraph.mk demoListGraph.adjacencyLists).GetNextVertices v = some next :=
  ⟨by decide,
    matrixGraph_row_is_successor_list (.list demoListGraph) ⟨demoListGraph.adjacencyLists⟩
      (by decide)⟩
